import Mathlib

/-!
Verification development for the chat application (protocol.py, server.py,
network_client.py, models.py, data_base.py).

The embedding follows the source:
* protocol.py: length-prefixed JSON frames. A message is a JSON value
  (the message-creation functions only build objects whose leaves are
  strings, non-negative integers, arrays and nested objects, so the
  Json type below covers exactly that universe; json.dumps is embedded
  with its default settings: ensure_ascii escaping and the separators
  comma-space and colon-space; json.loads is embedded as a recursive
  descent parser of the grammar restricted to the values the codec can
  carry, i.e. without floats, booleans and null, which no message ever
  contains).
* sockets are embedded as the list of byte chunks successive recv calls
  return; recv(k) yields at most k bytes from the front of the stream.
-/

set_option maxHeartbeats 1000000
set_option linter.unusedVariables false

/-- JSON values as produced by the message-creation functions of
protocol.py: strings, non-negative integers (ports and file sizes),
arrays, and objects with insertion-ordered keys (Python 3.7+ dicts). -/
inductive Json where
  | str (s : String)
  | num (n : Nat)
  | arr (xs : List Json)
  | obj (kvs : List (String × Json))

/-- Structural induction for Json through its nested lists. -/
def jsonInd (P : Json → Prop)
    (hstr : ∀ s, P (.str s)) (hnum : ∀ n, P (.num n))
    (harr : ∀ xs, (∀ x ∈ xs, P x) → P (.arr xs))
    (hobj : ∀ kvs, (∀ kv ∈ kvs, P kv.2) → P (.obj kvs)) : ∀ v, P v
  | .str s => hstr s
  | .num n => hnum n
  | .arr xs => harr xs (fun x hx => jsonInd P hstr hnum harr hobj x)
  | .obj kvs => hobj kvs (fun kv hkv => jsonInd P hstr hnum harr hobj kv.2)
termination_by v => sizeOf v
decreasing_by
  all_goals first
    | (have hlt := List.sizeOf_lt_of_mem hx
       simp only [Json.arr.sizeOf_spec]
       omega)
    | (have h1 := List.sizeOf_lt_of_mem hkv
       have h2 : sizeOf kv.2 < sizeOf kv := by
         obtain ⟨a, b⟩ := kv
         simp only [Prod.mk.sizeOf_spec]
         omega
       simp only [Json.obj.sizeOf_spec]
       omega)

/-- Decimal digit character, as Python str(int) renders one digit. -/
def digitChar (n : Nat) : Char := Char.ofNat (48 + n)

/-- Fuel-driven digit expansion of str(n); fuel larger than n suffices. -/
def natDigitsGo : Nat → Nat → List Char
  | 0, _ => []
  | fuel + 1, n =>
    if n < 10 then [digitChar n]
    else natDigitsGo fuel (n / 10) ++ [digitChar (n % 10)]

/-- Decimal rendering of a non-negative int, as json.dumps and str produce it. -/
def natDigits (n : Nat) : List Char := natDigitsGo (n + 1) n

/-- Lowercase hexadecimal digit, as the json module emits in unicode escapes. -/
def hexDigitChar (n : Nat) : Char :=
  if n < 10 then Char.ofNat (48 + n) else Char.ofNat (87 + n)

/-- Four-digit lowercase hex rendering used by the backslash-u escapes. -/
def hex4 (n : Nat) : List Char :=
  [hexDigitChar (n / 4096 % 16), hexDigitChar (n / 256 % 16),
   hexDigitChar (n / 16 % 16), hexDigitChar (n % 16)]

/-- One character escaped as json.dumps with ensure_ascii=True (the default)
escapes it: quote and backslash get a backslash, the five short control
escapes are used, any other character outside the printable ASCII range
0x20..0x7e becomes a backslash-u escape, with a surrogate pair beyond
the basic multilingual plane. -/
def escChar (c : Char) : List Char :=
  if c = '"' then ['\\', '"']
  else if c = '\\' then ['\\', '\\']
  else if c = '\x08' then ['\\', 'b']
  else if c = '\t' then ['\\', 't']
  else if c = '\n' then ['\\', 'n']
  else if c = '\x0c' then ['\\', 'f']
  else if c = '\r' then ['\\', 'r']
  else if 0x20 ≤ c.toNat ∧ c.toNat ≤ 0x7e then [c]
  else if c.toNat < 0x10000 then '\\' :: 'u' :: hex4 c.toNat
  else
    ('\\' :: 'u' :: hex4 (0xd800 + (c.toNat - 0x10000) / 0x400)) ++
    ('\\' :: 'u' :: hex4 (0xdc00 + (c.toNat - 0x10000) % 0x400))

/-- Escape every character of a string body. -/
def escStr : List Char → List Char
  | [] => []
  | c :: cs => escChar c ++ escStr cs

mutual
/-- json.dumps with its default separators: a serialized JSON value. -/
def dumpsVal : Json → List Char
  | .str s => '"' :: escStr s.data ++ ['"']
  | .num n => natDigits n
  | .arr xs => '[' :: dumpsElems xs ++ [']']
  | .obj kvs => '{' :: dumpsMembers kvs ++ ['}']

/-- Array elements joined by the default item separator comma-space. -/
def dumpsElems : List Json → List Char
  | [] => []
  | [x] => dumpsVal x
  | x :: y :: xs => dumpsVal x ++ ',' :: ' ' :: dumpsElems (y :: xs)

/-- Object members: escaped key, colon-space, value, joined by comma-space. -/
def dumpsMembers : List (String × Json) → List Char
  | [] => []
  | [(k, v)] => '"' :: escStr k.data ++ '"' :: ':' :: ' ' :: dumpsVal v
  | (k, v) :: m :: kvs =>
    ('"' :: escStr k.data ++ '"' :: ':' :: ' ' :: dumpsVal v) ++
    ',' :: ' ' :: dumpsMembers (m :: kvs)
end

/-- UTF-8 encoding of one unicode scalar value, as str.encode produces it. -/
def utf8Char (c : Char) : List Nat :=
  let n := c.toNat
  if n < 0x80 then [n]
  else if n < 0x800 then [0xc0 + n / 64, 0x80 + n % 64]
  else if n < 0x10000 then [0xe0 + n / 4096, 0x80 + n / 64 % 64, 0x80 + n % 64]
  else [0xf0 + n / 0x40000, 0x80 + n / 4096 % 64, 0x80 + n / 64 % 64, 0x80 + n % 64]

/-- UTF-8 encoding of a character sequence. -/
def utf8Encode : List Char → List Nat
  | [] => []
  | c :: cs => utf8Char c ++ utf8Encode cs

/-- The 4-byte network-byte-order header struct.pack bang-I builds. -/
def be32 (n : Nat) : List Nat :=
  [n / 16777216 % 256, n / 65536 % 256, n / 256 % 256, n % 256]

/-- struct.unpack bang-I of a 4-byte header (the helper is only applied to
headers of exactly four bytes; other shapes never occur). -/
def be32Val : List Nat → Nat
  | [b0, b1, b2, b3] => ((b0 * 256 + b1) * 256 + b2) * 256 + b3
  | _ => 0

/-- protocol.send_message, lines 41-69: dumps the dict, UTF-8-encodes it,
prefixes the 4-byte length and sends header plus payload in one sendall.
struct.pack raises for a length of 2 to the 32 or more, the except clause
swallows it and nothing is sent: that case is the none result. -/
def sendMessageBytes (v : Json) : Option (List Nat) :=
  let payload := utf8Encode (dumpsVal v)
  if payload.length < 4294967296 then some (be32 payload.length ++ payload)
  else none

/-! Message-creation functions of protocol.py, lines 107-200.
Each builds the dict of the corresponding wire-format table entry with
the keys in source order. -/

/-- protocol.create_download_ready_response. -/
def createDownloadReadyResponse (port : Nat) (filename : String) (filesize : Nat) : Json :=
  .obj [("type", .str "download_ready"), ("port", .num port),
        ("filename", .str filename), ("filesize", .num filesize)]

/-- protocol.create_download_request. -/
def createDownloadRequest (uniqueFilename : String) : Json :=
  .obj [("type", .str "download_request"), ("unique_filename", .str uniqueFilename)]

/-- protocol.create_leave_group_request. -/
def createLeaveGroupRequest (groupName : String) : Json :=
  .obj [("type", .str "leave_group"), ("group_name", .str groupName)]

/-- protocol.create_search_users_message. -/
def createSearchUsersMessage (query : String) : Json :=
  .obj [("type", .str "search_users"), ("query", .str query)]

/-- protocol.create_search_results_message; results is a list of nicknames. -/
def createSearchResultsMessage (results : List String) : Json :=
  .obj [("type", .str "search_results"), ("results", .arr (results.map .str))]

/-- protocol.create_group_message_request. -/
def createGroupMessageRequest (groupName : String) (members : List String) : Json :=
  .obj [("type", .str "create_group"), ("group_name", .str groupName),
        ("members", .arr (members.map .str))]

/-- protocol.create_update_group_list_message. -/
def createUpdateGroupListMessage (groups : List String) : Json :=
  .obj [("type", .str "update_group_list"), ("groups", .arr (groups.map .str))]

/-- protocol.create_server_response. -/
def createServerResponse (status message : String) : Json :=
  .obj [("type", .str "server_response"), ("status", .str status),
        ("message", .str message)]

/-- protocol.create_chat_message. -/
def createChatMessage (nickname messageText timestamp groupName : String) : Json :=
  .obj [("type", .str "chat"), ("nickname", .str nickname),
        ("message", .str messageText), ("timestamp", .str timestamp),
        ("group_name", .str groupName)]

/-- protocol.create_system_message: the group_name key is added only when
the argument is truthy, i.e. present and non-empty. -/
def createSystemMessage (messageText timestamp : String) (groupName : Option String) : Json :=
  .obj ([("type", .str "system"), ("message", .str messageText),
         ("timestamp", .str timestamp)] ++
    (match groupName with
     | some g => if g = "" then [] else [("group_name", Json.str g)]
     | none => []))

/-- protocol.create_nickname_message. -/
def createNicknameMessage (nickname : String) : Json :=
  .obj [("type", .str "nickname"), ("nickname", .str nickname)]

/-- protocol.create_client_message. -/
def createClientMessage (messageText groupName : String) : Json :=
  .obj [("type", .str "chat"), ("message", .str messageText),
        ("group_name", .str groupName)]

/-- protocol.create_get_history_request. -/
def createGetHistoryRequest (groupName : String) : Json :=
  .obj [("type", .str "get_history"), ("group_name", .str groupName)]

/-- protocol.create_group_history_response; the history entries are prior
message envelopes. -/
def createGroupHistoryResponse (history : List Json) : Json :=
  .obj [("type", .str "group_history_response"), ("history", .arr history)]

/-- protocol.create_upload_request. -/
def createUploadRequest (groupName filename : String) (filesize : Nat) : Json :=
  .obj [("type", .str "upload_request"), ("group_name", .str groupName),
        ("filename", .str filename), ("filesize", .num filesize)]

/-- protocol.create_upload_ready_response. -/
def createUploadReadyResponse (port : Nat) (uniqueFilename : String) : Json :=
  .obj [("type", .str "upload_ready"), ("port", .num port),
        ("unique_filename", .str uniqueFilename)]

/-- protocol.create_file_notification. -/
def createFileNotification (sender filename uniqueFilename groupName timestamp : String) : Json :=
  .obj [("type", .str "file_notification"), ("sender", .str sender),
        ("filename", .str filename), ("unique_filename", .str uniqueFilename),
        ("group_name", .str groupName), ("timestamp", .str timestamp)]

/-- A message built by one of the sixteen message-creation functions of
protocol.py, with arbitrary field contents. -/
def isCreatedMessage (m : Json) : Prop :=
  (∃ port filename filesize, m = createDownloadReadyResponse port filename filesize) ∨
  (∃ u, m = createDownloadRequest u) ∨
  (∃ g, m = createLeaveGroupRequest g) ∨
  (∃ q, m = createSearchUsersMessage q) ∨
  (∃ rs, m = createSearchResultsMessage rs) ∨
  (∃ g ms, m = createGroupMessageRequest g ms) ∨
  (∃ gs, m = createUpdateGroupListMessage gs) ∨
  (∃ st msg, m = createServerResponse st msg) ∨
  (∃ n t ts g, m = createChatMessage n t ts g) ∨
  (∃ t ts g, m = createSystemMessage t ts g) ∨
  (∃ n, m = createNicknameMessage n) ∨
  (∃ t g, m = createClientMessage t g) ∨
  (∃ g, m = createGetHistoryRequest g) ∨
  (∃ h, m = createGroupHistoryResponse h) ∨
  (∃ g f sz, m = createUploadRequest g f sz) ∨
  (∃ p u, m = createUploadReadyResponse p u) ∨
  (∃ sn f u g ts, m = createFileNotification sn f u g ts)

/-! The decoding side: json.loads restricted to the value grammar the codec
emits (strings with escapes including surrogate pairs, unsigned integers,
arrays, objects), UTF-8 decoding, and the socket receive loop. -/

/-- JSON whitespace as the json module skips it. -/
def isJsonWs (c : Char) : Bool := c = ' ' || c = '\t' || c = '\n' || c = '\r'

/-- Skip insignificant whitespace between tokens. -/
def skipWs : List Char → List Char
  | [] => []
  | c :: cs => if isJsonWs c then skipWs cs else c :: cs

/-- Value of one hexadecimal digit, upper or lower case, as the backslash-u
escape parser of the json module reads it. -/
def hexVal (c : Char) : Option Nat :=
  if 48 ≤ c.toNat ∧ c.toNat ≤ 57 then some (c.toNat - 48)
  else if 97 ≤ c.toNat ∧ c.toNat ≤ 102 then some (c.toNat - 87)
  else if 65 ≤ c.toNat ∧ c.toNat ≤ 70 then some (c.toNat - 55)
  else none

/-- Value of a four-digit hexadecimal escape body. -/
def hex4Val (a b c d : Char) : Option Nat :=
  match hexVal a, hexVal b, hexVal c, hexVal d with
  | some ha, some hb, some hc, some hd => some (((ha * 16 + hb) * 16 + hc) * 16 + hd)
  | _, _, _, _ => none

/-- Single-character escapes accepted after a backslash (py_scanstring). -/
def escDecode (c : Char) : Option Char :=
  if c = '"' then some '"'
  else if c = '\\' then some '\\'
  else if c = '/' then some '/'
  else if c = 'b' then some '\x08'
  else if c = 'f' then some '\x0c'
  else if c = 'n' then some '\n'
  else if c = 'r' then some '\r'
  else if c = 't' then some '\t'
  else none

/-- Backslash-u escape handling of py_scanstring: four hex digits give a
code unit; a high surrogate followed by another backslash-u low surrogate
combines into one supplementary character; otherwise the unit stands alone
(the lone-surrogate case is unreachable from this codec and goes through
Char.ofNat). The continuation k scans the remaining body. -/
def parseU (k : List Char → Option (List Char × List Char)) :
    List Char → Option (List Char × List Char)
  | a :: b :: c2 :: d :: rest3 =>
    match hex4Val a b c2 d with
    | none => none
    | some code =>
      if 0xd800 ≤ code ∧ code < 0xdc00 then
        match rest3 with
        | x1 :: x2 :: e2 :: f2 :: g2 :: h2 :: rest4 =>
          if x1 = '\\' ∧ x2 = 'u' then
            match hex4Val e2 f2 g2 h2 with
            | some lo =>
              if 0xdc00 ≤ lo ∧ lo < 0xe000 then
                (k rest4).map (fun p =>
                  (Char.ofNat (0x10000 + (code - 0xd800) * 1024 + (lo - 0xdc00)) :: p.1, p.2))
              else
                (k (x1 :: x2 :: e2 :: f2 :: g2 :: h2 :: rest4)).map
                  (fun p => (Char.ofNat code :: p.1, p.2))
            | none =>
              (k (x1 :: x2 :: e2 :: f2 :: g2 :: h2 :: rest4)).map
                (fun p => (Char.ofNat code :: p.1, p.2))
          else
            (k (x1 :: x2 :: e2 :: f2 :: g2 :: h2 :: rest4)).map
              (fun p => (Char.ofNat code :: p.1, p.2))
        | other => (k other).map (fun p => (Char.ofNat code :: p.1, p.2))
      else (k rest3).map (fun p => (Char.ofNat code :: p.1, p.2))
  | _ => none

/-- String-body scanner of json.loads (py_scanstring) after the opening
quote: literal characters up to the closing quote, backslash escapes,
backslash-u escapes with surrogate-pair combination, strict rejection of
raw control characters; none is a decode error. The fuel counts scanner
iterations, one per produced character plus one for the closing quote;
every iteration consumes at least one input character, so callers pass one
more than the input length, which always suffices. -/
def parseStr : Nat → List Char → Option (List Char × List Char)
  | 0, _ => none
  | _, [] => none
  | fuel + 1, c :: rest =>
    if c = '"' then some ([], rest)
    else if c = '\\' then
      match rest with
      | [] => none
      | e :: rest2 =>
        if e = 'u' then parseU (parseStr fuel) rest2
        else
          match escDecode e with
          | some d => (parseStr fuel rest2).map (fun p => (d :: p.1, p.2))
          | none => none
    else if c.toNat < 0x20 then none
    else (parseStr fuel rest).map (fun p => (c :: p.1, p.2))

/-- Numeric value of a run of decimal digit characters. -/
def digitsVal (cs : List Char) : Nat :=
  cs.foldl (fun a c => a * 10 + (c.toNat - 48)) 0

mutual
/-- Value scanner of json.loads over the grammar the codec emits. The fuel
argument only bounds the nesting of recursive calls; the top-level entry
point passes more fuel than any input can consume. -/
def parseValue : Nat → List Char → Option (Json × List Char)
  | 0, _ => none
  | fuel + 1, cs =>
    match cs with
    | [] => none
    | c :: rest =>
      if c = '"' then
        (parseStr (rest.length + 1) rest).map (fun p => (Json.str ⟨p.1⟩, p.2))
      else if c = '[' then
        match skipWs rest with
        | [] => none
        | d :: r2 =>
          if d = ']' then some (.arr [], r2)
          else
            match parseElems fuel (d :: r2) with
            | some (xs, r3) => some (.arr xs, r3)
            | none => none
      else if c = '{' then
        match skipWs rest with
        | [] => none
        | d :: r2 =>
          if d = '}' then some (.obj [], r2)
          else
            match parseMembers fuel (d :: r2) with
            | some (kvs, r3) => some (.obj kvs, r3)
            | none => none
      else if c.isDigit then
        some (.num (digitsVal ((c :: rest).takeWhile Char.isDigit)),
              (c :: rest).dropWhile Char.isDigit)
      else none

/-- Comma-separated array elements up to the closing bracket. -/
def parseElems : Nat → List Char → Option (List Json × List Char)
  | 0, _ => none
  | fuel + 1, cs =>
    match parseValue fuel cs with
    | none => none
    | some (x, r) =>
      match skipWs r with
      | [] => none
      | d :: r2 =>
        if d = ',' then
          match parseElems fuel (skipWs r2) with
          | some (xs, r3) => some (x :: xs, r3)
          | none => none
        else if d = ']' then some ([x], r2)
        else none

/-- Comma-separated object members up to the closing brace. -/
def parseMembers : Nat → List Char → Option (List (String × Json) × List Char)
  | 0, _ => none
  | fuel + 1, cs =>
    match cs with
    | [] => none
    | c :: rest =>
      if c = '"' then
        match parseStr (rest.length + 1) rest with
        | none => none
        | some (k, cs2) =>
          match skipWs cs2 with
          | [] => none
          | d :: cs3 =>
            if d = ':' then
              match parseValue fuel (skipWs cs3) with
              | none => none
              | some (v, cs4) =>
                match skipWs cs4 with
                | [] => none
                | e :: cs5 =>
                  if e = ',' then
                    match parseMembers fuel (skipWs cs5) with
                    | some (kvs, cs6) => some ((⟨k⟩, v) :: kvs, cs6)
                    | none => none
                  else if e = '}' then some ([(⟨k⟩, v)], cs5)
                  else none
            else none
      else none
end

/-- json.loads on a decoded text: skip leading whitespace, scan one value,
and require that only whitespace follows; anything else is a decode error. -/
def jsonLoadsChars (cs : List Char) : Option Json :=
  let body := skipWs cs
  match parseValue (body.length + 1) body with
  | some (v, rest) => if (skipWs rest).isEmpty then some v else none
  | none => none

/-- One step of strict UTF-8 decoding as bytes.decode performs it: the
lead byte b followed by the stream bs yields one scalar value and the
remaining bytes, rejecting stray continuation bytes, overlong forms,
surrogates and out-of-range values. -/
def utf8DecodeOne (b : Nat) (bs : List Nat) : Option (Char × List Nat) :=
  if b < 0x80 then some (Char.ofNat b, bs)
  else if b < 0xc2 then none
  else if b < 0xe0 then
    match bs with
    | b1 :: bs2 =>
      if 0x80 ≤ b1 ∧ b1 < 0xc0 then
        some (Char.ofNat ((b - 0xc0) * 64 + (b1 - 0x80)), bs2)
      else none
    | _ => none
  else if b < 0xf0 then
    match bs with
    | b1 :: b2 :: bs2 =>
      if (0x80 ≤ b1 ∧ b1 < 0xc0) ∧ (0x80 ≤ b2 ∧ b2 < 0xc0) then
        if 0x800 ≤ (b - 0xe0) * 4096 + (b1 - 0x80) * 64 + (b2 - 0x80) ∧
            ¬(0xd800 ≤ (b - 0xe0) * 4096 + (b1 - 0x80) * 64 + (b2 - 0x80) ∧
              (b - 0xe0) * 4096 + (b1 - 0x80) * 64 + (b2 - 0x80) < 0xe000) then
          some (Char.ofNat ((b - 0xe0) * 4096 + (b1 - 0x80) * 64 + (b2 - 0x80)), bs2)
        else none
      else none
    | _ => none
  else if b < 0xf5 then
    match bs with
    | b1 :: b2 :: b3 :: bs2 =>
      if (0x80 ≤ b1 ∧ b1 < 0xc0) ∧ (0x80 ≤ b2 ∧ b2 < 0xc0) ∧ (0x80 ≤ b3 ∧ b3 < 0xc0) then
        if 0x10000 ≤ (b - 0xf0) * 0x40000 + (b1 - 0x80) * 4096 + (b2 - 0x80) * 64 + (b3 - 0x80) ∧
            (b - 0xf0) * 0x40000 + (b1 - 0x80) * 4096 + (b2 - 0x80) * 64 + (b3 - 0x80) < 0x110000 then
          some (Char.ofNat ((b - 0xf0) * 0x40000 + (b1 - 0x80) * 4096 + (b2 - 0x80) * 64 + (b3 - 0x80)), bs2)
        else none
      else none
    | _ => none
  else none

/-- Strict UTF-8 decoding of a byte sequence, one scalar value at a time.
The fuel counts decoded characters; every character consumes at least one
byte, so callers pass one more than the byte count, which always suffices. -/
def utf8Decode : Nat → List Nat → Option (List Char)
  | 0, _ => none
  | _, [] => some []
  | fuel + 1, b :: bs =>
    match utf8DecodeOne b bs with
    | none => none
    | some (c, rest) => (utf8Decode fuel rest).map (c :: ·)

/-! Socket model. A connection delivers its bytes as a sequence of chunks;
sock.recv(k) returns at most k bytes from the front of the stream, and an
empty result means the peer closed the connection. -/

/-- One sock.recv(k) call on a chunked stream: up to k bytes from the front
chunk, the unread remainder of that chunk stays queued. -/
def recvOne : List (List Nat) → Nat → List Nat × List (List Nat)
  | [], _ => ([], [])
  | c :: rest, k => (c.take k, if k < c.length then c.drop k :: rest else rest)

/-- protocol.recvall, lines 18-38: loop reading n minus received bytes until
n bytes are collected; an empty recv result yields None. The fuel bounds the
iteration count; n iterations always suffice because every productive recv
returns at least one byte. -/
def recvallGo : Nat → List (List Nat) → Nat → Option (List Nat × List (List Nat))
  | _, s, 0 => some ([], s)
  | 0, _, _ + 1 => none
  | fuel + 1, s, n + 1 =>
    let pr := recvOne s (n + 1)
    if pr.1.isEmpty then none
    else
      match recvallGo fuel pr.2 (n + 1 - pr.1.length) with
      | none => none
      | some (d, s2) => some (pr.1 ++ d, s2)

/-- protocol.receive_message, lines 72-103: read the 4-byte header, unpack
the length, read that many payload bytes, UTF-8-decode and json-parse them.
Every failure path, including a zero-length body, which the falsiness test
on the bytearray also treats as failure, returns None. -/
def receiveMessage (stream : List (List Nat)) : Option Json :=
  match recvallGo 4 stream 4 with
  | none => none
  | some (hdr, s1) =>
    if hdr.isEmpty then none
    else
      match recvallGo (be32Val hdr) s1 (be32Val hdr) with
      | none => none
      | some (body, _) =>
        if body.isEmpty then none
        else
          match utf8Decode (body.length + 1) body with
          | none => none
          | some text => jsonLoadsChars text
/-! Round-trip lemmas for the codec. -/

theorem charToNat_ofNat (n : Nat) (h : n.isValidChar) : (Char.ofNat n).toNat = n := by
  simp [Char.ofNat, h, Char.ofNatAux, Char.toNat]
  rfl

theorem char_toNat_valid (c : Char) :
    c.toNat < 0xd800 ∨ (0xdfff < c.toNat ∧ c.toNat < 0x110000) := by
  have h := c.valid
  rcases h with h | ⟨h1, h2⟩
  · exact Or.inl h
  · exact Or.inr ⟨h1, h2⟩

theorem char_toNat_lt (c : Char) : c.toNat < 0x110000 := by
  rcases char_toNat_valid c with h | ⟨_, h⟩
  · omega
  · exact h

theorem hexVal_hexDigitChar (d : Nat) (h : d < 16) :
    hexVal (hexDigitChar d) = some d := by
  interval_cases d <;> decide

theorem hex4Val_hex4 (n : Nat) (h : n < 0x10000) :
    hex4Val (hexDigitChar (n / 4096 % 16)) (hexDigitChar (n / 256 % 16))
      (hexDigitChar (n / 16 % 16)) (hexDigitChar (n % 16)) = some n := by
  have h1 := hexVal_hexDigitChar (n / 4096 % 16) (by omega)
  have h2 := hexVal_hexDigitChar (n / 256 % 16) (by omega)
  have h3 := hexVal_hexDigitChar (n / 16 % 16) (by omega)
  have h4 := hexVal_hexDigitChar (n % 16) (by omega)
  simp only [hex4Val, h1, h2, h3, h4, Option.some.injEq]
  omega

theorem parseStr_esc (fuel : Nat) (c : Char) (T : List Char) :
    parseStr (fuel + 1) (escChar c ++ T) =
      (parseStr fuel T).map (fun p => (c :: p.1, p.2)) := by
  by_cases h1 : c = '"'
  · subst h1
    rw [escChar]
    simp only [reduceIte, List.cons_append, List.nil_append]
    rw [parseStr.eq_def]
    simp [escDecode]
  by_cases h2 : c = '\\'
  · subst h2
    rw [escChar]
    simp only [Char.reduceEq, reduceIte, List.cons_append, List.nil_append]
    rw [parseStr.eq_def]
    simp [escDecode]
  by_cases h3 : c = '\x08'
  · subst h3
    rw [escChar]
    simp only [Char.reduceEq, reduceIte, List.cons_append, List.nil_append]
    rw [parseStr.eq_def]
    simp [escDecode]
  by_cases h4 : c = '\t'
  · subst h4
    rw [escChar]
    simp only [Char.reduceEq, reduceIte, List.cons_append, List.nil_append]
    rw [parseStr.eq_def]
    simp [escDecode]
  by_cases h5 : c = '\n'
  · subst h5
    rw [escChar]
    simp only [Char.reduceEq, reduceIte, List.cons_append, List.nil_append]
    rw [parseStr.eq_def]
    simp [escDecode]
  by_cases h6 : c = '\x0c'
  · subst h6
    rw [escChar]
    simp only [Char.reduceEq, reduceIte, List.cons_append, List.nil_append]
    rw [parseStr.eq_def]
    simp [escDecode]
  by_cases h7 : c = '\r'
  · subst h7
    rw [escChar]
    simp only [Char.reduceEq, reduceIte, List.cons_append, List.nil_append]
    rw [parseStr.eq_def]
    simp [escDecode]
  by_cases h8 : 0x20 ≤ c.toNat ∧ c.toNat ≤ 0x7e
  · have hq : ¬ c.toNat < 0x20 := by omega
    rw [escChar]
    simp only [h1, h2, h3, h4, h5, h6, h7, h8, and_self, if_false, if_true, reduceIte,
      List.cons_append, List.nil_append]
    rw [parseStr.eq_def]
    simp only [h1, h2, hq, if_false, reduceIte]
  by_cases h9 : c.toNat < 0x10000
  · have hvalid := char_toNat_valid c
    have hns : ¬(0xd800 ≤ c.toNat ∧ c.toNat < 0xdc00) := by omega
    rw [escChar]
    simp only [h1, h2, h3, h4, h5, h6, h7, h8, h9, if_false, if_true, reduceIte, hex4,
      List.cons_append, List.nil_append]
    rw [parseStr.eq_def]
    simp only [Char.reduceEq, reduceIte]
    rw [parseU]
    rw [hex4Val_hex4 c.toNat h9]
    simp only [hns, if_false, reduceIte, Char.ofNat_toNat]
  · have hlt := char_toNat_lt c
    have hmod := Nat.mod_lt (c.toNat - 0x10000) (show 0 < 0x400 by norm_num)
    have hhi : 0xd800 + (c.toNat - 0x10000) / 0x400 < 0x10000 := by omega
    have hlo : 0xdc00 + (c.toNat - 0x10000) % 0x400 < 0x10000 := by omega
    have hsur : 0xd800 ≤ 0xd800 + (c.toNat - 0x10000) / 0x400 ∧
        0xd800 + (c.toNat - 0x10000) / 0x400 < 0xdc00 := by omega
    have hlosur : 0xdc00 ≤ 0xdc00 + (c.toNat - 0x10000) % 0x400 ∧
        0xdc00 + (c.toNat - 0x10000) % 0x400 < 0xe000 := by omega
    rw [escChar]
    simp only [h1, h2, h3, h4, h5, h6, h7, h8, h9, if_false, if_true, reduceIte, hex4,
      List.cons_append, List.append_assoc, List.nil_append]
    rw [parseStr.eq_def]
    simp only [Char.reduceEq, reduceIte]
    rw [parseU]
    rw [hex4Val_hex4 _ hhi]
    simp only [hsur, and_self, if_true, reduceIte, Char.reduceEq, true_and]
    rw [hex4Val_hex4 _ hlo]
    simp only [hlosur, and_self, if_true, reduceIte]
    have hcp : 0x10000 + (0xd800 + (c.toNat - 0x10000) / 0x400 - 0xd800) * 1024 +
        (0xdc00 + (c.toNat - 0x10000) % 0x400 - 0xdc00) = c.toNat := by
      have := Nat.div_add_mod (c.toNat - 0x10000) 0x400
      omega
    rw [hcp, Char.ofNat_toNat]

theorem parseStr_escStr (s : List Char) (T : List Char) :
    ∀ fuel, s.length + 1 ≤ fuel →
      parseStr fuel (escStr s ++ '"' :: T) = some (s, T) := by
  induction s with
  | nil =>
    intro fuel hf
    obtain ⟨f, rfl⟩ : ∃ f, fuel = f + 1 := ⟨fuel - 1, by omega⟩
    rw [escStr, List.nil_append, parseStr.eq_def]
    simp
  | cons c cs ih =>
    intro fuel hf
    obtain ⟨f, rfl⟩ : ∃ f, fuel = f + 1 := ⟨fuel - 1, by omega⟩
    rw [escStr, List.append_assoc, parseStr_esc, ih f (by simpa using hf)]
    rfl
/-! Decimal digits round-trip. -/

theorem digitChar_isDigit (d : Nat) (h : d < 10) : (digitChar d).isDigit = true := by
  interval_cases d <;> decide

theorem digitChar_toNat (d : Nat) (h : d < 10) : (digitChar d).toNat = 48 + d := by
  rw [digitChar, charToNat_ofNat]
  left
  omega

theorem natDigitsGo_spec (fuel : Nat) :
    ∀ n, n < fuel →
      (natDigitsGo fuel n ≠ [] ∧ (∀ c ∈ natDigitsGo fuel n, c.isDigit = true) ∧
       ∀ a, (natDigitsGo fuel n).foldl (fun x c => x * 10 + (c.toNat - 48)) a =
         a * 10 ^ (natDigitsGo fuel n).length + n) := by
  induction fuel with
  | zero => intro n hn; omega
  | succ f ih =>
    intro n hn
    by_cases h10 : n < 10
    · rw [natDigitsGo, if_pos h10]
      refine ⟨by simp, by simp [digitChar_isDigit n h10], ?_⟩
      intro a
      simp only [List.foldl_cons, List.foldl_nil, List.length_cons, List.length_nil,
        digitChar_toNat n h10, pow_one, Nat.zero_add, pow_zero]
      omega
    · have hlt : n / 10 < f := by omega
      obtain ⟨hne, hdig, hval⟩ := ih (n / 10) hlt
      rw [natDigitsGo, if_neg h10]
      refine ⟨by simp, ?_, ?_⟩
      · intro c hc
        rcases List.mem_append.mp hc with hc | hc
        · exact hdig c hc
        · simp at hc
          subst hc
          exact digitChar_isDigit _ (by omega)
      · intro a
        rw [List.foldl_append, hval a]
        have hlen : (natDigitsGo f (n / 10) ++ [digitChar (n % 10)]).length
            = (natDigitsGo f (n / 10)).length + 1 := by simp
        rw [hlen]
        simp only [List.foldl_cons, List.foldl_nil, digitChar_toNat (n % 10) (by omega)]
        have hpow : a * 10 ^ ((natDigitsGo f (n / 10)).length + 1)
            = a * 10 ^ (natDigitsGo f (n / 10)).length * 10 := by
          rw [pow_succ]
          ring
        rw [hpow]
        have hdm := Nat.div_add_mod n 10
        set C := a * 10 ^ (natDigitsGo f (n / 10)).length
        omega

theorem natDigits_ne_nil (n : Nat) : natDigits n ≠ [] :=
  (natDigitsGo_spec (n + 1) n (by omega)).1

theorem natDigits_all_digits (n : Nat) : ∀ c ∈ natDigits n, c.isDigit = true :=
  (natDigitsGo_spec (n + 1) n (by omega)).2.1

theorem digitsVal_natDigits (n : Nat) : digitsVal (natDigits n) = n := by
  have h := (natDigitsGo_spec (n + 1) n (by omega)).2.2 0
  simpa [digitsVal, natDigits] using h
/-! Structure of serialized values: how the parser consumes them.
The weight functions bound the parser nesting the round trip needs:
one unit per parser call. -/

theorem takeWhile_append_head (p : Char → Bool) (xs ys : List Char)
    (hxs : ∀ x ∈ xs, p x = true)
    (hys : ∀ y, ys.head? = some y → p y = false) :
    ((xs ++ ys).takeWhile p = xs ∧ (xs ++ ys).dropWhile p = ys) := by
  induction xs with
  | nil =>
    simp only [List.nil_append]
    cases ys with
    | nil => simp
    | cons y t =>
      have hy := hys y rfl
      simp [List.takeWhile, List.dropWhile, hy]
  | cons x xs ih =>
    have hx := hxs x (by simp)
    obtain ⟨h1, h2⟩ := ih (fun z hz => hxs z (by simp [hz]))
    simp [List.takeWhile, List.dropWhile, hx, h1, h2]

mutual
def jweight : Json → Nat
  | .str _ => 1
  | .num _ => 1
  | .arr xs => 1 + lweight xs
  | .obj kvs => 1 + mweight kvs

def lweight : List Json → Nat
  | [] => 0
  | x :: xs => 1 + jweight x + lweight xs

def mweight : List (String × Json) → Nat
  | [] => 0
  | kv :: kvs => 1 + jweight kv.2 + mweight kvs
end

/-- Serialized values are never empty and start with a quote, a bracket, a
brace or a digit. -/
theorem dumpsVal_head (v : Json) :
    ∃ c cs, dumpsVal v = c :: cs ∧
      (c = '"' ∨ c = '[' ∨ c = '{' ∨ c.isDigit = true) := by
  cases v with
  | str s => exact ⟨'"', _, rfl, Or.inl rfl⟩
  | num n =>
    obtain ⟨c, cs, hcs⟩ : ∃ c cs, natDigits n = c :: cs := by
      cases h : natDigits n with
      | nil => exact absurd h (natDigits_ne_nil n)
      | cons c cs => exact ⟨c, cs, rfl⟩
    refine ⟨c, cs, ?_, Or.inr (Or.inr (Or.inr ?_))⟩
    · simpa [dumpsVal] using hcs
    · exact natDigits_all_digits n c (by simp [hcs])
  | arr xs => exact ⟨'[', _, rfl, Or.inr (Or.inl rfl)⟩
  | obj kvs => exact ⟨'{', _, rfl, Or.inr (Or.inr (Or.inl rfl))⟩

theorem head_kind_not_ws (c : Char)
    (h : c = '"' ∨ c = '[' ∨ c = '{' ∨ c.isDigit = true) : isJsonWs c = false := by
  rcases h with rfl | rfl | rfl | h
  · decide
  · decide
  · decide
  · by_contra hcon
    have hws : isJsonWs c = true := by
      revert hcon
      cases isJsonWs c <;> simp
    rw [isJsonWs] at hws
    simp only [Bool.or_eq_true, decide_eq_true_eq] at hws
    rcases hws with ((rfl | rfl) | rfl) | rfl <;> exact absurd h (by decide)

theorem head_kind_ne (c : Char)
    (h : c = '"' ∨ c = '[' ∨ c = '{' ∨ c.isDigit = true) :
    ¬ c = ']' ∧ ¬ c = '}' ∧ ¬ c = ',' := by
  rcases h with rfl | rfl | rfl | h
  · decide
  · decide
  · decide
  · refine ⟨?_, ?_, ?_⟩ <;> (intro heq; subst heq; exact absurd h (by decide))

theorem skipWs_not_ws (cs : List Char) (h : ∀ y, cs.head? = some y → isJsonWs y = false) :
    skipWs cs = cs := by
  cases cs with
  | nil => rfl
  | cons c t =>
    rw [skipWs, if_neg]
    simp [h c rfl]

theorem skipWs_dumps (v : Json) (R : List Char) :
    skipWs (dumpsVal v ++ R) = dumpsVal v ++ R := by
  obtain ⟨c, cs, hv, hk⟩ := dumpsVal_head v
  rw [hv]
  exact skipWs_not_ws _ (by
    intro y hy
    simp only [List.cons_append, List.head?_cons, Option.some.injEq] at hy
    subst hy
    exact head_kind_not_ws c hk)
theorem string_eta (s : String) : (⟨s.data⟩ : String) = s := by
  cases s
  rfl

theorem escChar_length_pos (c : Char) : 1 ≤ (escChar c).length := by
  rw [escChar]
  split_ifs <;> simp [hex4]

theorem escStr_length_ge (s : List Char) : s.length ≤ (escStr s).length := by
  induction s with
  | nil => simp [escStr]
  | cons c cs ih =>
    rw [escStr, List.length_append, List.length_cons]
    have := escChar_length_pos c
    omega

theorem digit_ne_delims (c : Char) (h : c.isDigit = true) :
    ¬ c = '"' ∧ ¬ c = '[' ∧ ¬ c = '{' := by
  refine ⟨?_, ?_, ?_⟩ <;> (intro heq; subst heq; exact absurd h (by decide))

/-- The round-trip property of one value: with enough fuel and a remainder
that does not begin with a digit, the scanner returns exactly the value the
serializer wrote and leaves the remainder. -/
def ParsesBack (v : Json) : Prop :=
  ∀ fuel rest, jweight v ≤ fuel →
    (∀ y, rest.head? = some y → y.isDigit = false) →
    parseValue fuel (dumpsVal v ++ rest) = some (v, rest)

theorem parsesBack_str (s : String) : ParsesBack (.str s) := by
  intro fuel rest hw hr
  obtain ⟨f, rfl⟩ : ∃ f, fuel = f + 1 := ⟨fuel - 1, by
    have : 1 ≤ fuel := by simpa [jweight] using hw
    omega⟩
  have : dumpsVal (Json.str s) ++ rest = '"' :: (escStr s.data ++ '"' :: rest) := by
    simp [dumpsVal]
  rw [this, parseValue.eq_def]
  simp only [reduceIte]
  rw [parseStr_escStr s.data rest _ (by
    have h1 := escStr_length_ge s.data
    simp only [List.length_append, List.length_cons]
    omega)]
  simp [string_eta]

theorem parsesBack_num (n : Nat) : ParsesBack (.num n) := by
  intro fuel rest hw hr
  obtain ⟨f, rfl⟩ : ∃ f, fuel = f + 1 := ⟨fuel - 1, by
    have : 1 ≤ fuel := by simpa [jweight] using hw
    omega⟩
  obtain ⟨c, cs, hcs⟩ : ∃ c cs, natDigits n = c :: cs := by
    cases h : natDigits n with
    | nil => exact absurd h (natDigits_ne_nil n)
    | cons c cs => exact ⟨c, cs, rfl⟩
  have hcd : c.isDigit = true := natDigits_all_digits n c (by simp [hcs])
  obtain ⟨hne1, hne2, hne3⟩ := digit_ne_delims c hcd
  have hshape : dumpsVal (Json.num n) ++ rest = c :: (cs ++ rest) := by
    simp [dumpsVal, hcs]
  rw [hshape, parseValue.eq_def]
  simp only [hne1, hne2, hne3, if_false, reduceIte, hcd, if_true]
  obtain ⟨htw, hdw⟩ := takeWhile_append_head Char.isDigit (natDigits n) rest
    (natDigits_all_digits n) hr
  rw [hcs] at htw hdw
  simp only [List.cons_append] at htw hdw
  rw [htw, hdw, ← hcs, digitsVal_natDigits]
theorem dumpsElems_cons (y : Json) (ys : List Json) :
    dumpsElems (y :: ys) =
      dumpsVal y ++ (match ys with | [] => [] | z :: zs => ',' :: ' ' :: dumpsElems (z :: zs)) := by
  cases ys with
  | nil => simp [dumpsElems]
  | cons z zs => rw [dumpsElems]

theorem skipWs_dumpsElems (y : Json) (ys : List Json) (R : List Char) :
    skipWs (dumpsElems (y :: ys) ++ R) = dumpsElems (y :: ys) ++ R := by
  obtain ⟨c, cs, hv, hk⟩ := dumpsVal_head y
  rw [dumpsElems_cons, List.append_assoc, hv]
  exact skipWs_not_ws _ (by
    intro w hw
    simp only [List.cons_append, List.head?_cons, Option.some.injEq] at hw
    subst hw
    exact head_kind_not_ws c hk)

theorem skipWs_bracket (c : Char) (t : List Char) (h : isJsonWs c = false) :
    skipWs (c :: t) = c :: t := by
  rw [skipWs, if_neg]
  simp [h]

theorem parseElems_dumps (xs : List Json) (hall : ∀ x ∈ xs, ParsesBack x) :
    xs ≠ [] →
    ∀ fuel rest, lweight xs ≤ fuel →
      parseElems fuel (dumpsElems xs ++ ']' :: rest) = some (xs, rest) := by
  induction xs with
  | nil => intro h; exact absurd rfl h
  | cons x xs ih =>
    intro _ fuel rest hw
    obtain ⟨f, rfl⟩ : ∃ f, fuel = f + 1 := ⟨fuel - 1, by
      have : 1 ≤ fuel := by
        rw [lweight] at hw
        omega
      omega⟩
    rw [lweight] at hw
    cases xs with
    | nil =>
      have hx := hall x (by simp) f (']' :: rest)
        (by rw [lweight] at hw; omega)
        (by intro y hy; simp at hy; subst hy; decide)
      rw [parseElems, dumpsElems]
      simp only [hx, skipWs_bracket ']' rest (by decide), Char.reduceEq, reduceIte]
    | cons y ys =>
      have hsh : dumpsElems (x :: y :: ys) ++ ']' :: rest
          = dumpsVal x ++ (',' :: ' ' :: (dumpsElems (y :: ys) ++ ']' :: rest)) := by
        rw [dumpsElems]
        simp [List.append_assoc]
      have hx := hall x (by simp) f (',' :: ' ' :: (dumpsElems (y :: ys) ++ ']' :: rest))
        (by omega)
        (by intro w hw2; simp at hw2; subst hw2; decide)
      have hsp : skipWs (' ' :: (dumpsElems (y :: ys) ++ ']' :: rest))
          = dumpsElems (y :: ys) ++ ']' :: rest := by
        rw [skipWs, if_pos (by decide)]
        exact skipWs_dumpsElems y ys (']' :: rest)
      rw [parseElems, hsh]
      simp only [hx, skipWs_bracket ',' _ (by decide), Char.reduceEq, reduceIte, hsp,
        ih (fun z hz => hall z (by simp [hz])) (by simp) f rest (by omega)]
theorem parseMembers_dumps (kvs : List (String × Json))
    (hall : ∀ kv ∈ kvs, ParsesBack kv.2) :
    kvs ≠ [] →
    ∀ fuel rest, mweight kvs ≤ fuel →
      parseMembers fuel (dumpsMembers kvs ++ '}' :: rest) = some (kvs, rest) := by
  induction kvs with
  | nil => intro h; exact absurd rfl h
  | cons kv kvs ih =>
    obtain ⟨k, v⟩ := kv
    intro _ fuel rest hw
    obtain ⟨f, rfl⟩ : ∃ f, fuel = f + 1 := ⟨fuel - 1, by
      have : 1 ≤ fuel := by
        rw [mweight] at hw
        omega
      omega⟩
    rw [mweight] at hw
    simp only at hw
    cases kvs with
    | nil =>
      have hsh : dumpsMembers [(k, v)] ++ '}' :: rest
          = '"' :: (escStr k.data ++ '"' :: (':' :: ' ' :: (dumpsVal v ++ '}' :: rest))) := by
        rw [dumpsMembers]
        simp [List.append_assoc]
      have hkey := parseStr_escStr k.data (':' :: ' ' :: (dumpsVal v ++ '}' :: rest))
        ((escStr k.data ++ '"' :: (':' :: ' ' :: (dumpsVal v ++ '}' :: rest))).length + 1)
        (by
          have h1 := escStr_length_ge k.data
          simp only [List.length_append, List.length_cons]
          omega)
      have hv := hall (k, v) (by simp) f ('}' :: rest)
        (by show jweight v ≤ f; omega)
        (by intro w hw2; simp at hw2; subst hw2; decide)
      have hsp : skipWs (' ' :: (dumpsVal v ++ '}' :: rest)) = dumpsVal v ++ '}' :: rest := by
        rw [skipWs, if_pos (by decide)]
        exact skipWs_dumps v _
      rw [hsh, parseMembers.eq_def]
      simp only [Char.reduceEq, reduceIte, hkey, skipWs_bracket ':' _ (by decide), hsp,
        hv, skipWs_bracket '}' _ (by decide), string_eta]
    | cons m kvs2 =>
      have hsh : dumpsMembers ((k, v) :: m :: kvs2) ++ '}' :: rest
          = '"' :: (escStr k.data ++ '"' :: (':' :: ' ' ::
              (dumpsVal v ++ ',' :: ' ' :: (dumpsMembers (m :: kvs2) ++ '}' :: rest)))) := by
        rw [dumpsMembers]
        simp [List.append_assoc]
      have hkey := parseStr_escStr k.data
        (':' :: ' ' :: (dumpsVal v ++ ',' :: ' ' :: (dumpsMembers (m :: kvs2) ++ '}' :: rest)))
        ((escStr k.data ++ '"' :: (':' :: ' ' ::
          (dumpsVal v ++ ',' :: ' ' :: (dumpsMembers (m :: kvs2) ++ '}' :: rest)))).length + 1)
        (by
          have h1 := escStr_length_ge k.data
          simp only [List.length_append, List.length_cons]
          omega)
      have hv := hall (k, v) (by simp) f
        (',' :: ' ' :: (dumpsMembers (m :: kvs2) ++ '}' :: rest))
        (by show jweight v ≤ f; omega)
        (by intro w hw2; simp at hw2; subst hw2; decide)
      have hsp : skipWs (' ' :: (dumpsVal v ++ ',' :: ' ' :: (dumpsMembers (m :: kvs2) ++ '}' :: rest)))
          = dumpsVal v ++ ',' :: ' ' :: (dumpsMembers (m :: kvs2) ++ '}' :: rest) := by
        rw [skipWs, if_pos (by decide)]
        exact skipWs_dumps v _
      have hm : ∃ cs0, dumpsMembers (m :: kvs2) = '"' :: cs0 := by
        obtain ⟨k2, v2⟩ := m
        cases kvs2 with
        | nil =>
          exact ⟨escStr k2.data ++ '"' :: ':' :: ' ' :: dumpsVal v2,
            by rw [dumpsMembers]; simp⟩
        | cons m2 kvs3 =>
          exact ⟨escStr k2.data ++ '"' :: ':' :: ' ' :: dumpsVal v2 ++
              ',' :: ' ' :: dumpsMembers (m2 :: kvs3),
            by rw [dumpsMembers]; simp [List.append_assoc]⟩
      obtain ⟨cs0, hm⟩ := hm
      have hsp2 : skipWs (' ' :: (dumpsMembers (m :: kvs2) ++ '}' :: rest))
          = dumpsMembers (m :: kvs2) ++ '}' :: rest := by
        rw [skipWs, if_pos (by decide), hm]
        exact skipWs_bracket '"' _ (by decide)
      rw [hsh, parseMembers.eq_def]
      simp only [Char.reduceEq, reduceIte, hkey, skipWs_bracket ':' _ (by decide), hsp,
        hv, skipWs_bracket ',' _ (by decide), hsp2, string_eta,
        ih (fun z hz => hall z (by simp [hz])) (by simp) f rest (by omega)]
theorem parsesBack_all (v : Json) : ParsesBack v := by
  induction v using jsonInd with
  | hstr s => exact parsesBack_str s
  | hnum n => exact parsesBack_num n
  | harr xs hxs =>
    intro fuel rest hw hr
    obtain ⟨f, rfl⟩ : ∃ f, fuel = f + 1 := ⟨fuel - 1, by
      rw [jweight] at hw
      omega⟩
    rw [jweight] at hw
    cases xs with
    | nil =>
      have : dumpsVal (Json.arr []) ++ rest = '[' :: ']' :: rest := by
        simp [dumpsVal, dumpsElems]
      rw [this, parseValue.eq_def]
      simp only [Char.reduceEq, reduceIte, skipWs_bracket ']' rest (by decide)]
    | cons x xs =>
      have hsh : dumpsVal (Json.arr (x :: xs)) ++ rest
          = '[' :: (dumpsElems (x :: xs) ++ ']' :: rest) := by
        simp [dumpsVal, List.append_assoc]
      rw [hsh, parseValue.eq_def]
      simp only [Char.reduceEq, reduceIte]
      rw [skipWs_dumpsElems x xs (']' :: rest)]
      obtain ⟨c, cs, hv, hk⟩ := dumpsVal_head x
      obtain ⟨hne1, hne2, hne3⟩ := head_kind_ne c hk
      obtain ⟨E, hE⟩ : ∃ E, dumpsElems (x :: xs) = dumpsVal x ++ E := by
        cases xs with
        | nil => exact ⟨[], by simp [dumpsElems]⟩
        | cons z zs => exact ⟨',' :: ' ' :: dumpsElems (z :: zs), by rw [dumpsElems]⟩
      have hshape : dumpsElems (x :: xs) ++ ']' :: rest
          = c :: (cs ++ (E ++ ']' :: rest)) := by
        rw [hE, hv]
        simp [List.append_assoc]
      rw [hshape]
      simp only [hne1, reduceIte]
      rw [← hshape]
      rw [parseElems_dumps (x :: xs) hxs (by simp) f rest (by rw [lweight] at hw ⊢; omega)]
  | hobj kvs hkvs =>
    intro fuel rest hw hr
    obtain ⟨f, rfl⟩ : ∃ f, fuel = f + 1 := ⟨fuel - 1, by
      rw [jweight] at hw
      omega⟩
    rw [jweight] at hw
    cases kvs with
    | nil =>
      have : dumpsVal (Json.obj []) ++ rest = '{' :: '}' :: rest := by
        simp [dumpsVal, dumpsMembers]
      rw [this, parseValue.eq_def]
      simp only [Char.reduceEq, reduceIte, skipWs_bracket '}' rest (by decide)]
    | cons kv kvs =>
      have hsh : dumpsVal (Json.obj (kv :: kvs)) ++ rest
          = '{' :: (dumpsMembers (kv :: kvs) ++ '}' :: rest) := by
        simp [dumpsVal, List.append_assoc]
      rw [hsh, parseValue.eq_def]
      simp only [Char.reduceEq, reduceIte]
      have hm : ∃ cs0, dumpsMembers (kv :: kvs) = '"' :: cs0 := by
        obtain ⟨k2, v2⟩ := kv
        cases kvs with
        | nil =>
          exact ⟨escStr k2.data ++ '"' :: ':' :: ' ' :: dumpsVal v2,
            by rw [dumpsMembers]; simp⟩
        | cons m2 kvs3 =>
          exact ⟨escStr k2.data ++ '"' :: ':' :: ' ' :: dumpsVal v2 ++
              ',' :: ' ' :: dumpsMembers (m2 :: kvs3),
            by rw [dumpsMembers]; simp [List.append_assoc]⟩
      obtain ⟨cs0, hm⟩ := hm
      rw [hm]
      simp only [List.cons_append, skipWs_bracket '"' _ (by decide), Char.reduceEq, reduceIte]
      rw [← List.cons_append, ← hm]
      rw [parseMembers_dumps (kv :: kvs) hkvs (by simp) f rest (by rw [mweight] at hw ⊢; omega)]
theorem lweight_le (ys : List Json)
    (h : ∀ y ∈ ys, jweight y ≤ (dumpsVal y).length) :
    lweight ys ≤ (dumpsElems ys).length + 1 := by
  induction ys with
  | nil => simp [lweight, dumpsElems]
  | cons x xs ih =>
    have hx := h x (by simp)
    cases xs with
    | nil =>
      rw [lweight, lweight, dumpsElems]
      omega
    | cons y ys2 =>
      have := ih (fun z hz => h z (by simp [hz]))
      rw [lweight, dumpsElems]
      simp only [List.length_append, List.length_cons]
      omega

theorem mweight_le (kvs : List (String × Json))
    (h : ∀ kv ∈ kvs, jweight kv.2 ≤ (dumpsVal kv.2).length) :
    mweight kvs ≤ (dumpsMembers kvs).length + 1 := by
  induction kvs with
  | nil => simp [mweight, dumpsMembers]
  | cons kv kvs ih =>
    obtain ⟨k, v⟩ := kv
    have hx := h (k, v) (by simp)
    simp only at hx
    cases kvs with
    | nil =>
      rw [mweight, mweight, dumpsMembers]
      simp only [List.length_append, List.length_cons]
      omega
    | cons m kvs2 =>
      have := ih (fun z hz => h z (by simp [hz]))
      rw [mweight, dumpsMembers]
      simp only [List.length_append, List.length_cons]
      omega

theorem jweight_le_length (v : Json) : jweight v ≤ (dumpsVal v).length := by
  induction v using jsonInd with
  | hstr s =>
    rw [jweight, dumpsVal]
    simp
  | hnum n =>
    rw [jweight, dumpsVal]
    have := natDigits_ne_nil n
    cases h : natDigits n with
    | nil => exact absurd h this
    | cons c cs => simp [h]
  | harr xs hxs =>
    have := lweight_le xs hxs
    rw [jweight, dumpsVal]
    simp only [List.length_append, List.length_cons]
    omega
  | hobj kvs hkvs =>
    have := mweight_le kvs hkvs
    rw [jweight, dumpsVal]
    simp only [List.length_append, List.length_cons]
    omega

/-- json.loads inverts json.dumps on every value of the codec universe. -/
theorem jsonLoads_dumps (v : Json) : jsonLoadsChars (dumpsVal v) = some v := by
  rw [jsonLoadsChars]
  have hskip : skipWs (dumpsVal v) = dumpsVal v := by
    have := skipWs_dumps v []
    simpa using this
  simp only [hskip]
  have hpv := parsesBack_all v ((dumpsVal v).length + 1) []
    (by have := jweight_le_length v; omega)
    (by intro y hy; simp at hy)
  rw [List.append_nil] at hpv
  rw [hpv]
  simp [skipWs]
/-! ASCII payloads: ensure_ascii keeps every serialized byte below 0x80,
so UTF-8 encoding is byte-per-character and decoding inverts it. -/

theorem hexDigitChar_ascii (d : Nat) (h : d < 16) : (hexDigitChar d).toNat < 128 := by
  rw [hexDigitChar]
  split_ifs with h10
  · rw [charToNat_ofNat _ (Or.inl (by omega))]
    omega
  · rw [charToNat_ofNat _ (Or.inl (by omega))]
    omega

theorem mem_bsu_hex_ascii (n : Nat) (d : Char) (hd : d ∈ '\\' :: 'u' :: hex4 n) :
    d.toNat < 128 := by
  simp only [hex4, List.mem_cons, List.not_mem_nil, or_false] at hd
  rcases hd with rfl | rfl | rfl | rfl | rfl | rfl
  · decide
  · decide
  · exact hexDigitChar_ascii _ (by omega)
  · exact hexDigitChar_ascii _ (by omega)
  · exact hexDigitChar_ascii _ (by omega)
  · exact hexDigitChar_ascii _ (by omega)

theorem escChar_ascii (c : Char) : ∀ d ∈ escChar c, d.toNat < 128 := by
  intro d hd
  rw [escChar] at hd
  split_ifs at hd with h1 h2 h3 h4 h5 h6 h7 h8 h9
  · simp only [List.mem_cons, List.not_mem_nil, or_false] at hd
    rcases hd with rfl | rfl
    · decide
    · decide
  · simp only [List.mem_cons, List.not_mem_nil, or_false] at hd
    rcases hd with rfl | rfl
    · decide
    · decide
  · simp only [List.mem_cons, List.not_mem_nil, or_false] at hd
    rcases hd with rfl | rfl
    · decide
    · decide
  · simp only [List.mem_cons, List.not_mem_nil, or_false] at hd
    rcases hd with rfl | rfl
    · decide
    · decide
  · simp only [List.mem_cons, List.not_mem_nil, or_false] at hd
    rcases hd with rfl | rfl
    · decide
    · decide
  · simp only [List.mem_cons, List.not_mem_nil, or_false] at hd
    rcases hd with rfl | rfl
    · decide
    · decide
  · simp only [List.mem_cons, List.not_mem_nil, or_false] at hd
    rcases hd with rfl | rfl
    · decide
    · decide
  · simp only [List.mem_cons, List.not_mem_nil, or_false] at hd
    subst hd
    omega
  · exact mem_bsu_hex_ascii _ d hd
  · rcases List.mem_append.mp hd with h | h
    · exact mem_bsu_hex_ascii _ d h
    · exact mem_bsu_hex_ascii _ d h

theorem escStr_ascii (s : List Char) : ∀ d ∈ escStr s, d.toNat < 128 := by
  induction s with
  | nil => simp [escStr]
  | cons c cs ih =>
    intro d hd
    rw [escStr] at hd
    rcases List.mem_append.mp hd with h | h
    · exact escChar_ascii c d h
    · exact ih d h

theorem digit_toNat_lt (c : Char) (h : c.isDigit = true) : c.toNat < 128 := by
  rw [Char.isDigit] at h
  simp only [Bool.and_eq_true, decide_eq_true_eq] at h
  have h2 := h.2
  have : c.toNat ≤ 57 := by
    have hle : c.val ≤ 57 := h2
    exact hle
  omega
theorem dumpsElems_eq_flat (xs : List Json) :
    ∀ d ∈ dumpsElems xs, d = ',' ∨ d = ' ' ∨ ∃ x ∈ xs, d ∈ dumpsVal x := by
  induction xs with
  | nil => simp [dumpsElems]
  | cons x xs ih =>
    intro d hd
    cases xs with
    | nil =>
      rw [dumpsElems] at hd
      exact Or.inr (Or.inr ⟨x, by simp, hd⟩)
    | cons y ys =>
      rw [dumpsElems] at hd
      simp only [List.mem_append, List.mem_cons, or_assoc] at hd
      rcases hd with h | rfl | rfl | h
      · exact Or.inr (Or.inr ⟨x, by simp, h⟩)
      · exact Or.inl rfl
      · exact Or.inr (Or.inl rfl)
      · rcases ih d h with h2 | h2 | ⟨z, hz, hdz⟩
        · exact Or.inl h2
        · exact Or.inr (Or.inl h2)
        · exact Or.inr (Or.inr ⟨z, by simp [hz], hdz⟩)

theorem dumpsMembers_eq_flat (kvs : List (String × Json)) :
    ∀ d ∈ dumpsMembers kvs,
      (d = '"' ∨ d = ':' ∨ d = ' ' ∨ d = ',') ∨ (∃ kv ∈ kvs, d ∈ escStr kv.1.data) ∨
        ∃ kv ∈ kvs, d ∈ dumpsVal kv.2 := by
  induction kvs with
  | nil => simp [dumpsMembers]
  | cons kv kvs ih =>
    obtain ⟨k, v⟩ := kv
    intro d hd
    cases kvs with
    | nil =>
      rw [dumpsMembers] at hd
      simp only [List.mem_append, List.mem_cons, List.not_mem_nil, or_false, or_assoc] at hd
      rcases hd with rfl | h | rfl | rfl | rfl | h
      · exact Or.inl (Or.inl rfl)
      · exact Or.inr (Or.inl ⟨(k, v), by simp, h⟩)
      · exact Or.inl (Or.inl rfl)
      · exact Or.inl (Or.inr (Or.inl rfl))
      · exact Or.inl (Or.inr (Or.inr (Or.inl rfl)))
      · exact Or.inr (Or.inr ⟨(k, v), by simp, h⟩)
    | cons m kvs2 =>
      rw [dumpsMembers] at hd
      simp only [List.mem_append, List.mem_cons, or_assoc] at hd
      rcases hd with rfl | h | rfl | rfl | rfl | h | rfl | rfl | h
      · exact Or.inl (Or.inl rfl)
      · exact Or.inr (Or.inl ⟨(k, v), by simp, h⟩)
      · exact Or.inl (Or.inl rfl)
      · exact Or.inl (Or.inr (Or.inl rfl))
      · exact Or.inl (Or.inr (Or.inr (Or.inl rfl)))
      · exact Or.inr (Or.inr ⟨(k, v), by simp, h⟩)
      · exact Or.inl (Or.inr (Or.inr (Or.inr rfl)))
      · exact Or.inl (Or.inr (Or.inr (Or.inl rfl)))
      · rcases ih d h with h2 | ⟨z, hz, hdz⟩ | ⟨z, hz, hdz⟩
        · exact Or.inl h2
        · exact Or.inr (Or.inl ⟨z, by simp [hz], hdz⟩)
        · exact Or.inr (Or.inr ⟨z, by simp [hz], hdz⟩)

theorem dumpsVal_ascii (v : Json) : ∀ d ∈ dumpsVal v, d.toNat < 128 := by
  induction v using jsonInd with
  | hstr s =>
    intro d hd
    rw [dumpsVal] at hd
    simp only [List.mem_cons, List.mem_append, List.not_mem_nil, or_false, or_assoc] at hd
    rcases hd with rfl | h | rfl
    · decide
    · exact escStr_ascii s.data d h
    · decide
  | hnum n =>
    intro d hd
    rw [dumpsVal] at hd
    exact digit_toNat_lt d (natDigits_all_digits n d hd)
  | harr xs hxs =>
    intro d hd
    rw [dumpsVal] at hd
    simp only [List.mem_cons, List.mem_append, List.not_mem_nil, or_false, or_assoc] at hd
    rcases hd with rfl | h | rfl
    · decide
    · rcases dumpsElems_eq_flat xs d h with rfl | rfl | ⟨x, hx, hdx⟩
      · decide
      · decide
      · exact hxs x hx d hdx
    · decide
  | hobj kvs hkvs =>
    intro d hd
    rw [dumpsVal] at hd
    simp only [List.mem_cons, List.mem_append, List.not_mem_nil, or_false, or_assoc] at hd
    rcases hd with rfl | h | rfl
    · decide
    · rcases dumpsMembers_eq_flat kvs d h with (rfl | rfl | rfl | rfl) | ⟨z, hz, hdz⟩ | ⟨z, hz, hdz⟩
      · decide
      · decide
      · decide
      · decide
      · exact escStr_ascii z.1.data d hdz
      · exact hkvs z hz d hdz
    · decide
theorem utf8Encode_ascii (cs : List Char) (h : ∀ c ∈ cs, c.toNat < 128) :
    utf8Encode cs = cs.map Char.toNat := by
  induction cs with
  | nil => rfl
  | cons c cs ih =>
    have hc := h c (by simp)
    rw [utf8Encode, utf8Char]
    simp only [hc, if_pos, reduceIte]
    rw [ih (fun z hz => h z (by simp [hz]))]
    simp

theorem utf8Decode_ascii (cs : List Char) (h : ∀ c ∈ cs, c.toNat < 128) :
    ∀ fuel, cs.length < fuel → utf8Decode fuel (cs.map Char.toNat) = some cs := by
  induction cs with
  | nil =>
    intro fuel hf
    obtain ⟨f, rfl⟩ : ∃ f, fuel = f + 1 := ⟨fuel - 1, by omega⟩
    rfl
  | cons c cs ih =>
    intro fuel hf
    obtain ⟨f, rfl⟩ : ∃ f, fuel = f + 1 := ⟨fuel - 1, by omega⟩
    have hc := h c (by simp)
    simp only [List.map_cons]
    rw [utf8Decode, utf8DecodeOne.eq_def]
    simp only [hc, if_pos, reduceIte,
      ih (fun z hz => h z (by simp [hz])) f (by simp at hf; omega)]
    simp [Char.ofNat_toNat]

theorem be32Val_be32 (n : Nat) (h : n < 4294967296) : be32Val (be32 n) = n := by
  rw [be32, be32Val]
  omega

/-! The receive loop on a chunked stream: recvall returns exactly the first
n bytes of the delivered stream, for every partition into non-empty chunks. -/

theorem recvallGo_spec (fuel : Nat) :
    ∀ n s, n ≤ fuel → (∀ c ∈ s, c ≠ ([] : List Nat)) → n ≤ s.flatten.length →
      ∃ s2, recvallGo fuel s n = some (s.flatten.take n, s2) ∧
        s2.flatten = s.flatten.drop n ∧ ∀ c ∈ s2, c ≠ [] := by
  induction fuel with
  | zero =>
    intro n s hn hc hl
    obtain rfl : n = 0 := by omega
    exact ⟨s, rfl, by simp, hc⟩
  | succ f ih =>
    intro n s hn hc hl
    cases n with
    | zero => exact ⟨s, rfl, by simp, hc⟩
    | succ m =>
      cases s with
      | nil => simp at hl
      | cons c rest =>
        have hcne : c ≠ [] := hc c (by simp)
        obtain ⟨b, cb, rfl⟩ : ∃ b cb, c = b :: cb := by
          cases c with
          | nil => exact absurd rfl hcne
          | cons b cb => exact ⟨b, cb, rfl⟩
        rw [recvallGo]
        simp only [recvOne]
        rw [if_neg (by simp [List.take])]
        simp only [List.flatten_cons] at hl ⊢
        by_cases hsplit : m + 1 < (b :: cb).length
        · rw [if_pos hsplit]
          have hlen : (List.take (m + 1) (b :: cb)).length = m + 1 := by
            rw [List.length_take]
            omega
          rw [hlen]
          have hz : m + 1 - (m + 1) = 0 := by omega
          rw [hz]
          have hrest : ∀ x ∈ (b :: cb).drop (m + 1) :: rest, x ≠ ([] : List Nat) := by
            intro x hx
            rw [List.mem_cons] at hx
            rcases hx with rfl | hx
            · simp only [ne_eq, List.drop_eq_nil_iff]
              omega
            · exact hc x (by simp [hx])
          obtain ⟨s2, he, hf2, hne⟩ := ih 0 ((b :: cb).drop (m + 1) :: rest) (by omega) hrest (by omega)
          simp only [he, List.take_zero, List.append_nil]
          have hz2 : m + 1 - (b :: cb).length = 0 := by omega
          refine ⟨s2, ?_, ?_, hne⟩
          · rw [List.take_append_eq_append_take, hz2]
            simp
          · rw [hf2]
            simp only [List.flatten_cons, List.drop_zero]
            rw [List.drop_append_eq_append_drop, hz2]
            simp
        · rw [if_neg hsplit]
          have htake : List.take (m + 1) (b :: cb) = b :: cb :=
            List.take_of_length_le (by omega)
          rw [htake]
          have hchain : ∀ x ∈ rest, x ≠ ([] : List Nat) := fun x hx => hc x (by simp [hx])
          obtain ⟨s2, he, hf2, hne⟩ := ih (m + 1 - (b :: cb).length) rest
            (by simp only [List.length_cons]; simp only [List.length_cons] at hsplit; omega)
            hchain
            (by simp only [List.length_append] at hl; omega)
          simp only [he]
          refine ⟨s2, ?_, ?_, hne⟩
          · rw [List.take_append_eq_append_take, htake]
          · rw [hf2, List.drop_append_eq_append_drop]
            have hdr : List.drop (m + 1) (b :: cb) = [] := by
              rw [List.drop_eq_nil_iff]
              omega
            rw [hdr]
            simp
/-- Every frame decodes back to the message it was encoded from, for every
partition of the frame bytes into successive non-empty recv chunks. -/
theorem receiveMessage_frame (m : Json) (bs : List Nat) (stream : List (List Nat))
    (henc : sendMessageBytes m = some bs)
    (hflat : stream.flatten = bs)
    (hchunks : ∀ c ∈ stream, c ≠ []) :
    receiveMessage stream = some m := by
  rw [sendMessageBytes] at henc
  split_ifs at henc with hlen
  · injection henc with henc
    subst henc
    set payload := utf8Encode (dumpsVal m) with hpay
    have hasc := dumpsVal_ascii m
    have hpm : payload = (dumpsVal m).map Char.toNat := utf8Encode_ascii _ hasc
    have hne : dumpsVal m ≠ [] := by
      obtain ⟨c, cs, hv, _⟩ := dumpsVal_head m
      simp [hv]
    have hplen : payload.length = (dumpsVal m).length := by
      rw [hpm, List.length_map]
    have hbe4 : (be32 payload.length).length = 4 := rfl
    have hflen : stream.flatten.length = 4 + payload.length := by
      rw [hflat, List.length_append, hbe4]
    obtain ⟨s2, he1, hf1, hne1⟩ := recvallGo_spec 4 4 stream (by omega) hchunks (by omega)
    rw [receiveMessage]
    have htk4 : stream.flatten.take 4 = be32 payload.length := by
      rw [hflat, List.take_append_eq_append_take]
      rw [show (4 : Nat) - (be32 payload.length).length = 0 by rw [hbe4]]
      rw [show List.take 4 (be32 payload.length) = be32 payload.length from
        hbe4 ▸ List.take_length (be32 payload.length)]
      simp
    have hdr4 : stream.flatten.drop 4 = payload := by
      rw [hflat, List.drop_append_eq_append_drop]
      rw [show (4 : Nat) - (be32 payload.length).length = 0 by rw [hbe4]]
      rw [show List.drop 4 (be32 payload.length) = [] by
        rw [List.drop_eq_nil_iff, hbe4]]
      simp
    have hhdr_ne : (be32 payload.length).isEmpty = false := rfl
    obtain ⟨s3, he2, hf2, hne2⟩ := recvallGo_spec payload.length payload.length s2
      (by omega) hne1 (by rw [hf1, hdr4])
    have htkp : s2.flatten.take payload.length = payload := by
      rw [hf1, hdr4, List.take_length]
    have hpne : payload.isEmpty = false := by
      rw [hpm]
      cases hv : dumpsVal m with
      | nil => exact absurd hv hne
      | cons c cs => simp [hv]
    have hdec : utf8Decode (payload.length + 1) payload = some (dumpsVal m) := by
      rw [hpm, List.length_map]
      exact utf8Decode_ascii (dumpsVal m) hasc _ (by omega)
    simp only [he1, htk4, hhdr_ne, Bool.false_eq_true, if_false, reduceIte,
      be32Val_be32 _ hlen, he2, htkp, hpne, hdec, jsonLoads_dumps m]
/-- C1: for every message m produced by the message-creation functions of
protocol.py (any field contents, including empty and non-ASCII strings),
decoding a byte stream that contains exactly the bytes send_message
produced for m, under any partitioning of those bytes into successive
non-empty read chunks, returns a mapping equal to m. -/
theorem claim_protocol_roundtrip (m : Json) (bs : List Nat) (stream : List (List Nat))
    (hm : isCreatedMessage m)
    (henc : sendMessageBytes m = some bs)
    (hflat : stream.flatten = bs)
    (hchunks : ∀ c ∈ stream, c ≠ []) :
    receiveMessage stream = some m :=
  receiveMessage_frame m bs stream henc hflat hchunks

/-- Witness for C1 at the nickname message with an empty nickname, its
frame split into two read chunks. -/
theorem claim_protocol_roundtrip_witness :
    receiveMessage
      [[0, 0, 0, 36, 123], [34, 116, 121, 112, 101, 34, 58, 32, 34, 110, 105, 99, 107,
        110, 97, 109, 101, 34, 44, 32, 34, 110, 105, 99, 107, 110, 97, 109, 101, 34,
        58, 32, 34, 34, 125]] = some (createNicknameMessage "") :=
  claim_protocol_roundtrip (createNicknameMessage "")
    ([0, 0, 0, 36, 123, 34, 116, 121, 112, 101, 34, 58, 32, 34, 110, 105, 99, 107,
      110, 97, 109, 101, 34, 44, 32, 34, 110, 105, 99, 107, 110, 97, 109, 101, 34,
      58, 32, 34, 34, 125])
    [[0, 0, 0, 36, 123], [34, 116, 121, 112, 101, 34, 58, 32, 34, 110, 105, 99, 107,
      110, 97, 109, 101, 34, 44, 32, 34, 110, 105, 99, 107, 110, 97, 109, 101, 34,
      58, 32, 34, 34, 125]]
    (Or.inr (Or.inr (Or.inr (Or.inr (Or.inr (Or.inr (Or.inr (Or.inr (Or.inr (Or.inr
      (Or.inl ⟨"", rfl⟩)))))))))))
    (by decide)
    (by decide)
    (by decide)
theorem recvallGo_short (fuel : Nat) :
    ∀ n s, n ≤ fuel → s.flatten.length < n → recvallGo fuel s n = none := by
  induction fuel with
  | zero =>
    intro n s hn hl
    obtain rfl : n = 0 := by omega
    omega
  | succ f ih =>
    intro n s hn hl
    cases n with
    | zero => omega
    | succ m =>
      cases s with
      | nil => rfl
      | cons c rest =>
        rw [recvallGo]
        simp only [recvOne]
        cases c with
        | nil => rfl
        | cons b cb =>
          rw [if_neg (by simp [List.take])]
          simp only [List.flatten_cons, List.length_append] at hl
          have hnotsplit : ¬ m + 1 < (b :: cb).length := by
            simp only [List.length_cons] at hl ⊢
            omega
          rw [if_neg hnotsplit]
          have htake : List.take (m + 1) (b :: cb) = b :: cb :=
            List.take_of_length_le (by omega)
          rw [htake]
          rw [ih (m + 1 - (b :: cb).length) rest
            (by simp only [List.length_cons] at hnotsplit ⊢; omega)
            (by omega)]

/-- C6 counterexample: a complete frame whose one-byte payload is not valid
JSON is reported exactly like a clean end of stream: both receive_message
results are the same None value, not results of distinct kinds. -/
theorem claim_decode_failure_kind_cex :
    receiveMessage [[0, 0, 0, 1], [123]] = receiveMessage [] ∧
      receiveMessage [] = none :=
  ⟨rfl, rfl⟩

/-- C6 as amended: receive_message reports every failure with the same
sentinel None that it reports for a clean end of stream. A clean end of
stream yields None; a stream closed inside the 4-byte header yields None;
a malformed payload yields None; a stream closed in the middle of a frame
body yields None. No distinction of kinds exists in the code. -/
theorem claim_decode_failure_kind_amended :
    receiveMessage [] = none ∧
    (∀ stream : List (List Nat), stream.flatten.length < 4 → receiveMessage stream = none) ∧
    receiveMessage [[0, 0, 0, 1], [123]] = none ∧
    receiveMessage [[0, 0, 0, 5], [123]] = none := by
  refine ⟨rfl, ?_, rfl, rfl⟩
  intro stream hl
  rw [receiveMessage, recvallGo_short 4 4 stream (by omega) hl]

/-- Witness for the amended C6 at a stream that closes inside the header. -/
theorem claim_decode_failure_kind_amended_witness :
    receiveMessage [[1, 2]] = none :=
  claim_decode_failure_kind_amended.2.1 [[1, 2]] (by decide)
/-! Session registration (server.py, handle_client lines 180-214) and the
nickname whitespace handling. -/

/-- The whitespace characters Python str.strip removes: exactly the code
points for which str.isspace holds. -/
def pyIsSpace (c : Char) : Bool :=
  c.toNat = 9 || c.toNat = 10 || c.toNat = 11 || c.toNat = 12 || c.toNat = 13 ||
  c.toNat = 28 || c.toNat = 29 || c.toNat = 30 || c.toNat = 31 || c.toNat = 32 ||
  c.toNat = 0x85 || c.toNat = 0xa0 || c.toNat = 0x1680 ||
  (0x2000 ≤ c.toNat && c.toNat ≤ 0x200a) ||
  c.toNat = 0x2028 || c.toNat = 0x2029 || c.toNat = 0x202f ||
  c.toNat = 0x205f || c.toNat = 0x3000

/-- Python str.strip: drop the whitespace run at both ends. -/
def stripChars (cs : List Char) : List Char :=
  ((cs.dropWhile pyIsSpace).reverse.dropWhile pyIsSpace).reverse

/-- Python str.strip on a string. -/
def pyStrip (s : String) : String := ⟨stripChars s.data⟩

/-- Outcome of one registration attempt. -/
structure RegStep where
  ok : Bool
  nickname : Option String
  sent : List Json
  liveAfter : List String

/-- The registration step of handle_client, lines 182-214: the proposed
nickname is stripped; an empty or already-held name draws one error
server_response and the connection terminates with no session stored; an
acceptable name draws one ok server_response and the session is stored
under the stripped name (line 209). live is the list of nicknames of the
currently stored sessions (self.users.values()). -/
def registerStep (proposed : String) (live : List String) : RegStep :=
  let t := pyStrip proposed
  if t = "" ∨ t ∈ live then
    { ok := false, nickname := none,
      sent := [createServerResponse "error" "Nickname is empty or already in use."],
      liveAfter := live }
  else
    { ok := true, nickname := some t,
      sent := [createServerResponse "ok" "Welcome to the chat!"],
      liveAfter := t :: live }

/-- C2: registration succeeds iff the processed nickname is non-empty and
not already held by a live session; on success exactly one ok
server_response is sent and the session becomes live under that name; on
failure exactly one error server_response is sent and no session is
stored; nickname uniqueness across live sessions is preserved. -/
theorem claim_registration (proposed : String) (live : List String) :
    ((registerStep proposed live).ok = true ↔
      (pyStrip proposed ≠ "" ∧ pyStrip proposed ∉ live)) ∧
    ((registerStep proposed live).ok = true →
      (registerStep proposed live).nickname = some (pyStrip proposed) ∧
      (registerStep proposed live).sent =
        [createServerResponse "ok" "Welcome to the chat!"] ∧
      (registerStep proposed live).liveAfter = pyStrip proposed :: live) ∧
    ((registerStep proposed live).ok = false →
      (registerStep proposed live).sent =
        [createServerResponse "error" "Nickname is empty or already in use."] ∧
      (registerStep proposed live).liveAfter = live) ∧
    (live.Nodup → (registerStep proposed live).liveAfter.Nodup) := by
  rw [registerStep]
  by_cases h : pyStrip proposed = "" ∨ pyStrip proposed ∈ live
  · simp only [h, if_pos, reduceIte]
    refine ⟨by simp [h]; tauto, by simp, by simp, fun hn => hn⟩
  · simp only [h, if_neg, reduceIte]
    push_neg at h
    refine ⟨by simp [h], by simp, by simp, fun hn => ?_⟩
    exact List.Nodup.cons h.2 hn

/-- Witness for C2: a fresh nickname is accepted, a duplicate is refused. -/
theorem claim_registration_witness :
    (registerStep " alice " ["bob"]).ok = true ∧
      (registerStep "bob" ["bob"]).ok = false := by
  constructor
  · exact (claim_registration " alice " ["bob"]).1.mpr (by decide)
  · have h := (claim_registration "bob" ["bob"]).1
    by_contra hc
    simp only [Bool.not_eq_false] at hc
    have := h.mp hc
    simp [pyStrip, stripChars, pyIsSpace] at this
theorem dropWhile_all (p : Char → Bool) (cs : List Char) (h : ∀ c ∈ cs, p c = true) :
    cs.dropWhile p = [] := by
  induction cs with
  | nil => rfl
  | cons c t ih =>
    rw [List.dropWhile_cons, if_pos (h c (by simp))]
    exact ih (fun z hz => h z (by simp [hz]))

theorem stripChars_all_space (cs : List Char) (h : ∀ c ∈ cs, pyIsSpace c = true) :
    stripChars cs = [] := by
  rw [stripChars, dropWhile_all pyIsSpace cs h]
  rfl

theorem head_dropWhile_false (p : Char → Bool) (cs : List Char) :
    ∀ y, (cs.dropWhile p).head? = some y → p y = false := by
  induction cs with
  | nil => intro y hy; simp at hy
  | cons c t ih =>
    intro y hy
    rw [List.dropWhile_cons] at hy
    by_cases hc : p c = true
    · rw [if_pos hc] at hy
      exact ih y hy
    · rw [if_neg hc] at hy
      simp only [List.head?_cons, Option.some.injEq] at hy
      subst hy
      simpa using hc

theorem stripChars_last (cs : List Char) :
    ∀ y, (stripChars cs).getLast? = some y → pyIsSpace y = false := by
  intro y hy
  rw [stripChars, List.getLast?_reverse] at hy
  exact head_dropWhile_false pyIsSpace _ y hy

theorem stripChars_head (cs : List Char) :
    ∀ y, (stripChars cs).head? = some y → pyIsSpace y = false := by
  intro y hy
  rw [stripChars, List.head?_reverse] at hy
  set a := cs.dropWhile pyIsSpace with ha
  have hsuf : a.reverse.dropWhile pyIsSpace <:+ a.reverse := List.dropWhile_suffix pyIsSpace
  have hne : a.reverse.dropWhile pyIsSpace ≠ [] := by
    intro hz
    rw [hz] at hy
    simp at hy
  obtain ⟨t, heq⟩ := hsuf
  have h2 : (a.reverse.dropWhile pyIsSpace).getLast? = a.reverse.getLast? := by
    conv_rhs => rw [← heq]
    rw [List.getLast?_append_of_ne_nil _ hne]
  rw [h2, List.getLast?_reverse] at hy
  exact head_dropWhile_false pyIsSpace cs y hy

/-- C10 (implicit): the server strips surrounding whitespace from the
proposed nickname before validating it. A whitespace-only proposal is
rejected as empty; two proposals that strip to the same name collide as
duplicates once the first is registered; every stored nickname carries no
leading and no trailing whitespace. -/
theorem claim_nickname_whitespace :
    (∀ p live, (∀ c ∈ p.data, pyIsSpace c = true) → (registerStep p live).ok = false) ∧
    (∀ p₁ p₂ live, pyStrip p₁ = pyStrip p₂ → (registerStep p₁ live).ok = true →
      (registerStep p₂ (registerStep p₁ live).liveAfter).ok = false) ∧
    (∀ p live n, (registerStep p live).nickname = some n →
      (∀ y, n.data.head? = some y → pyIsSpace y = false) ∧
      (∀ y, n.data.getLast? = some y → pyIsSpace y = false)) := by
  refine ⟨?_, ?_, ?_⟩
  · intro p live hws
    have hstrip : pyStrip p = "" := by
      rw [pyStrip, stripChars_all_space p.data hws]
    rw [registerStep, if_pos (Or.inl hstrip)]
  · intro p1 p2 live heq hok
    have h2 := ((claim_registration p1 live).2.1 hok).2.2
    rw [registerStep, if_pos]
    right
    rw [h2, ← heq]
    simp
  · intro p live n hn
    rw [registerStep] at hn
    by_cases h : pyStrip p = "" ∨ pyStrip p ∈ live
    · rw [if_pos h] at hn
      simp at hn
    · rw [if_neg h] at hn
      simp only [Option.some.injEq] at hn
      subst hn
      exact ⟨stripChars_head p.data, stripChars_last p.data⟩

/-- Witness for C10: a tab-and-space proposal is rejected; after
registering one spelling of a name, another spelling that strips to the
same name is refused; an accepted padded nickname is stored stripped. -/
theorem claim_nickname_whitespace_witness :
    (registerStep "  " []).ok = false ∧
    (registerStep " bob" (registerStep "bob " []).liveAfter).ok = false ∧
    (registerStep " bob" []).nickname = some "bob" := by
  refine ⟨?_, ?_, by decide⟩
  · exact claim_nickname_whitespace.1 "  " [] (by decide)
  · exact claim_nickname_whitespace.2.1 "bob " " bob" [] (by decide) (by decide)
/-! Group chats in memory (models.py) and the broadcast operation. -/

/-- A connected user of models.py: the connection handle (modelled by its
descriptor number, which identifies the object, since Python compares User
objects by identity and one User exists per connection) and the nickname. -/
structure PyUser where
  conn : Nat
  nickname : String
deriving DecidableEq

/-- GroupChat.add_member, models.py lines 16-19: append unless present. -/
def addMember (members : List PyUser) (u : PyUser) : List PyUser :=
  if u ∈ members then members else members ++ [u]

/-- GroupChat.remove_member, models.py lines 21-24: remove the first
occurrence if present. -/
def removeMember (members : List PyUser) (u : PyUser) : List PyUser :=
  if u ∈ members then members.erase u else members

/-- GroupChat.broadcast, models.py lines 26-30: the members the loop sends
the message to, in order: every member that is not the excluded sender
(member != sender_user; a User never equals None, so passing none excludes
nobody). -/
def broadcastRecipients (members : List PyUser) (sender : Option PyUser) : List PyUser :=
  members.filter (fun m => some m ≠ sender)

/-- The (connection, encoded message) sends broadcast performs. -/
def broadcastSends (members : List PyUser) (data : Json) (sender : Option PyUser) :
    List (Nat × Json) :=
  (broadcastRecipients members sender).map (fun m => (m.conn, data))

/-- C3: broadcast never delivers to the excluded sender, delivers exactly
once to every other member, and with no exclusion delivers exactly once to
every member (the member list is duplicate-free, as add_member keeps it). -/
theorem claim_broadcast (members : List PyUser) (d : Json) (s : PyUser)
    (hnd : members.Nodup) :
    s ∉ broadcastRecipients members (some s) ∧
    (∀ m ∈ members, m ≠ s → (broadcastRecipients members (some s)).count m = 1) ∧
    (broadcastRecipients members none = members ∧
      ∀ m ∈ members, (broadcastRecipients members none).count m = 1) ∧
    broadcastSends members d (some s) =
      (broadcastRecipients members (some s)).map (fun m => (m.conn, d)) := by
  refine ⟨?_, ?_, ⟨?_, ?_⟩, rfl⟩
  · intro hmem
    rw [broadcastRecipients, List.mem_filter] at hmem
    simp at hmem
  · intro m hm hne
    refine List.count_eq_one_of_mem (List.Nodup.filter _ hnd) ?_
    rw [broadcastRecipients, List.mem_filter]
    simpa using ⟨hm, hne⟩
  · rw [broadcastRecipients]
    apply List.filter_eq_self.mpr
    intro a ha
    simp
  · intro m hm
    refine List.count_eq_one_of_mem (List.Nodup.filter _ hnd) ?_
    rw [broadcastRecipients, List.mem_filter]
    simpa using hm
/-- add_member keeps the member list duplicate-free, which is what the C3
count statement relies on. -/
theorem addMember_nodup (members : List PyUser) (u : PyUser) (h : members.Nodup) :
    (addMember members u).Nodup := by
  rw [addMember]
  split_ifs with hmem
  · exact h
  · rw [List.nodup_append]
    exact ⟨h, List.nodup_singleton u, by simpa using hmem⟩

/-- Witness for C3 in a two-member group: the sender receives nothing and
the other member receives the message exactly once. -/
theorem claim_broadcast_witness :
    (⟨0, "a"⟩ : PyUser) ∉
      broadcastRecipients [⟨0, "a"⟩, ⟨1, "b"⟩] (some ⟨0, "a"⟩) ∧
    (broadcastRecipients [⟨0, "a"⟩, ⟨1, "b"⟩] (some ⟨0, "a"⟩)).count ⟨1, "b"⟩ = 1 :=
  ⟨(claim_broadcast [⟨0, "a"⟩, ⟨1, "b"⟩] (Json.num 0) ⟨0, "a"⟩ (by decide)).1,
   (claim_broadcast [⟨0, "a"⟩, ⟨1, "b"⟩] (Json.num 0) ⟨0, "a"⟩ (by decide)).2.1
     ⟨1, "b"⟩ (by decide) (by decide)⟩

/-! File transfer receive loops (server.py FileReceiverThread.run lines
48-76 and network_client.py FileReceiverThread.run lines 89-110). Both
loops are identical: while fewer than filesize bytes have arrived, recv up
to 4096 bytes, stop on an empty result, write the chunk and count it. The
returned list is the concatenation written to the file. -/

/-- The server-side upload receive loop. -/
def serverFileRecvLoop (filesize : Nat) : Nat → List (List Nat) → List Nat
  | _, [] => []
  | received, chunk :: rest =>
    if received < filesize then
      if chunk.isEmpty then []
      else chunk ++ serverFileRecvLoop filesize (received + chunk.length) rest
    else []

/-- The client-side download receive loop of network_client.py; the code
is character-for-character the same loop as the server side. -/
def clientFileRecvLoop (filesize : Nat) : Nat → List (List Nat) → List Nat
  | _, [] => []
  | received, chunk :: rest =>
    if received < filesize then
      if chunk.isEmpty then []
      else chunk ++ clientFileRecvLoop filesize (received + chunk.length) rest
    else []

theorem serverFileRecvLoop_exact (filesize : Nat) (stream : List (List Nat)) :
    ∀ received, (∀ c ∈ stream, c ≠ []) →
      received + stream.flatten.length = filesize →
      serverFileRecvLoop filesize received stream = stream.flatten := by
  induction stream with
  | nil =>
    intro received hc hl
    rfl
  | cons chunk rest ih =>
    intro received hc hl
    have hne : chunk ≠ [] := hc chunk (by simp)
    simp only [List.flatten_cons, List.length_append] at hl
    have hpos : 0 < chunk.length := List.length_pos.mpr hne
    rw [serverFileRecvLoop, if_pos (by omega), if_neg (by simp [hne])]
    rw [ih (received + chunk.length) (fun z hz => hc z (by simp [hz])) (by omega)]
    rfl

theorem clientFileRecvLoop_eq (filesize received : Nat) (stream : List (List Nat)) :
    clientFileRecvLoop filesize received stream = serverFileRecvLoop filesize received stream := by
  induction stream generalizing received with
  | nil => rfl
  | cons chunk rest ih =>
    rw [clientFileRecvLoop, serverFileRecvLoop, ih]

/-- C4: when the transfer connection delivers exactly the declared number
of bytes, in arbitrary non-empty chunks of at most 4096 bytes as recv
returns them, both receive loops write a file that is byte-for-byte the
source, of exactly the declared size. -/
theorem claim_file_transfer_exact (n : Nat) (src : List Nat) (stream : List (List Nat))
    (hlen : src.length = n) (hflat : stream.flatten = src)
    (hchunks : ∀ c ∈ stream, c ≠ []) (hrecv : ∀ c ∈ stream, c.length ≤ 4096) :
    serverFileRecvLoop n 0 stream = src ∧
    clientFileRecvLoop n 0 stream = src ∧
    (serverFileRecvLoop n 0 stream).length = n := by
  have h1 : serverFileRecvLoop n 0 stream = src := by
    rw [← hflat]
    exact serverFileRecvLoop_exact n stream 0 hchunks (by rw [hflat, hlen]; omega)
  exact ⟨h1, by rw [clientFileRecvLoop_eq, h1], by rw [h1, hlen]⟩

/-- Witness for C4: a five-byte file arriving in chunks of two, two and
one byte is reassembled exactly. -/
theorem claim_file_transfer_exact_witness :
    serverFileRecvLoop 5 0 [[10, 11], [12, 13], [14]] = [10, 11, 12, 13, 14] :=
  (claim_file_transfer_exact 5 [10, 11, 12, 13, 14] [[10, 11], [12, 13], [14]]
    (by decide) (by decide) (by decide) (by decide)).1
/-! The persistence layer (data_base.py) over an explicit database state.
Rows are modelled by value; SQLite rowids and the group_id join are
resolved through the unique group name. The ORDER BY timestamp ASC of the
history query is modelled by insertion order, which coincides with it
because the server stores messages with nondecreasing full timestamps. -/

/-- One row of the messages table: the group it belongs to (resolved from
its group_id), sender nickname, content text, full timestamp. -/
structure MsgRow where
  rowGroup : String
  rowNickname : String
  rowContent : String
  rowTimestamp : String
deriving DecidableEq

/-- The database state: groups table (unique group_name, in insertion
order), group_members junction rows, messages rows. -/
structure DB where
  dbGroups : List String
  dbMembers : List (String × String)
  dbMessages : List MsgRow
deriving DecidableEq

/-- data_base.create_group, lines 189-221: inserting a group whose name
already exists violates the UNIQUE constraint, the IntegrityError rolls
the transaction back and False is returned with the database unchanged;
otherwise the group row and one membership row per distinct member
(set(members + [creator]), modelled as first-occurrence deduplication)
are inserted and True is returned. -/
def dbCreateGroup (db : DB) (groupName creator : String) (members : List String) :
    Bool × DB :=
  if groupName ∈ db.dbGroups then (false, db)
  else
    (true,
     { db with
       dbGroups := db.dbGroups ++ [groupName],
       dbMembers := db.dbMembers ++
         ((members ++ [creator]).eraseDups.map (fun m => (groupName, m))) })

/-- data_base.get_user_groups, lines 119-139: the names of the groups the
user belongs to. -/
def dbUserGroups (db : DB) (nickname : String) : List String :=
  db.dbGroups.filter (fun g => (g, nickname) ∈ db.dbMembers)

/-- data_base.remove_user_from_group, lines 239-261: a no-op when the
group name resolves to no group_id. -/
def dbRemoveUserFromGroup (db : DB) (nickname groupName : String) : DB :=
  if groupName ∈ db.dbGroups then
    { db with dbMembers :=
        db.dbMembers.filter (fun gm => ¬(gm.1 = groupName ∧ gm.2 = nickname)) }
  else db

/-- data_base.save_message, lines 264-291: a no-op when the group name
resolves to no group_id. -/
def dbSaveMessage (db : DB) (groupName nickname content timestamp : String) : DB :=
  if groupName ∈ db.dbGroups then
    { db with dbMessages := db.dbMessages ++ [⟨groupName, nickname, content, timestamp⟩] }
  else db

/-- The strptime-strftime reformat of data_base.get_group_history line
333: a full timestamp of the shape percent-Y-m-d H:M:S keeps its last
eight characters; a row whose timestamp does not fit raises ValueError,
which aborts the history loop (modelled by none; the shape test stands in
for strptime). -/
def tsShort (ts : String) : Option String :=
  if ts.data.length = 19 then some ⟨ts.data.drop 11⟩ else none

/-- One history row formatted as data_base.get_group_history lines 330-349
does: content that parses as a JSON object has its timestamp field (when
present) replaced by the short time; a parsed array or string is appended
as-is unless the membership test or item assignment raises TypeError, in
which case, as for unparsable content, the row is wrapped as a plain chat
envelope. -/
def formatRow (groupName : String) (row : MsgRow) : Option Json :=
  match tsShort row.rowTimestamp with
  | none => none
  | some short =>
    let fallback := Json.obj [("type", .str "chat"), ("nickname", .str row.rowNickname),
      ("message", .str row.rowContent), ("timestamp", .str short),
      ("group_name", .str groupName)]
    match jsonLoadsChars row.rowContent.data with
    | some (Json.obj kvs) =>
      if kvs.any (fun kv => kv.1 = "timestamp") then
        some (Json.obj (kvs.map (fun kv =>
          if kv.1 = "timestamp" then (kv.1, Json.str short) else kv)))
      else some (Json.obj kvs)
    | some (Json.arr xs) =>
      if xs.any (fun x => match x with | Json.str s => s = "timestamp" | _ => false) then
        some fallback
      else some (Json.arr xs)
    | some (Json.str s) =>
      if List.IsInfix "timestamp".data s.data then some fallback
      else some (Json.str s)
    | some (Json.num _) => some fallback
    | none => some fallback

/-- The history loop: rows in order; a ValueError from strptime returns
the rows accumulated so far. -/
def formatRows (groupName : String) : List MsgRow → List Json
  | [] => []
  | r :: rs =>
    match formatRow groupName r with
    | none => []
    | some j => j :: formatRows groupName rs

/-- data_base.get_group_history, lines 294-354: an unknown group yields an
empty history; otherwise the last 50 rows of the group are formatted. -/
def dbGetGroupHistory (db : DB) (groupName : String) : List Json :=
  if groupName ∈ db.dbGroups then
    let rows := db.dbMessages.filter (fun r => r.rowGroup = groupName)
    formatRows groupName (rows.drop (rows.length - 50))
  else []

/-! The server state (server.py ChatServer) and its handlers. -/

/-- The mutable server state: self.users (one PyUser per connection, in
insertion order), self.groups (group name to live member list), the
ephemeral-port counter self.next_file_port, and the database. -/
structure ServerState where
  users : List PyUser
  groups : List (String × List PyUser)
  nextFilePort : Nat
  db : DB

/-- self.groups.get(name). -/
def groupsGet (gs : List (String × List PyUser)) (name : String) : Option (List PyUser) :=
  (gs.find? (fun g => g.1 = name)).map (fun g => g.2)

/-- Replace the member list of one named group. -/
def updateGroup (gs : List (String × List PyUser)) (name : String)
    (members : List PyUser) : List (String × List PyUser) :=
  gs.map (fun g => if g.1 = name then (g.1, members) else g)

/-- The port allocation of handle_upload_request lines 279-281 and
handle_download_request lines 314-316: under the lock, return
next_file_port and increment it. -/
def allocPort (s : ServerState) : Nat × ServerState :=
  (s.nextFilePort, { s with nextFilePort := s.nextFilePort + 1 })

/-- The ports a sequence of consecutive allocations returns. -/
def allocPorts : ServerState → Nat → List Nat
  | _, 0 => []
  | s, k + 1 => (allocPort s).1 :: allocPorts (allocPort s).2 k

/-- os.path.basename on a POSIX path: everything after the last slash. -/
def posixBasename (s : String) : String :=
  ⟨(s.data.reverse.takeWhile (fun c => ¬ c = '/')).reverse⟩

/-- The unique storage key of handle_upload_request line 283:
str(int(time.time())) joined to the basename with one underscore. -/
def mkUniqueFilename (t : Nat) (filename : String) : String :=
  ⟨natDigits t ++ '_' :: (posixBasename filename).data⟩

/-- Python str.split on a single-character separator: splits at every
occurrence and keeps empty pieces. -/
def splitUscore : List Char → List (List Char)
  | [] => [[]]
  | c :: cs =>
    if c = '_' then [] :: splitUscore cs
    else
      match splitUscore cs with
      | [] => [[c]]
      | p :: ps => (c :: p) :: ps

/-- Python str.join with a single-character separator. -/
def joinUscore : List (List Char) → List Char
  | [] => []
  | [p] => p
  | p :: q :: ps => p ++ '_' :: joinUscore (q :: ps)

/-- The original-name reconstruction of handle_download_request line 319:
split the unique key on underscores, drop the first component, rejoin
with underscores. -/
def stripUniqueKey (u : String) : String :=
  ⟨joinUscore ((splitUscore u.data).drop 1)⟩
/-- The chat branch of handle_client, server.py lines 246-258: resolve the
group under the lock; if absent, nothing happens; otherwise persist the
message and broadcast the chat envelope to the other live members. The
timestamps (full for storage, short for display) are inputs, as
get_timestamp reads the clock. Returns the new state and the sends. -/
def handleChat (s : ServerState) (sender : PyUser)
    (groupName messageText tsFull tsDisplay : String) :
    ServerState × List (Nat × Json) :=
  match groupsGet s.groups groupName with
  | none => (s, [])
  | some members =>
    ({ s with db := dbSaveMessage s.db groupName sender.nickname messageText tsFull },
     broadcastSends members
       (createChatMessage sender.nickname messageText tsDisplay groupName)
       (some sender))

/-- ChatServer.handle_get_history, server.py lines 382-386: always replies
with a group_history_response carrying whatever the database returns. -/
def handleGetHistory (s : ServerState) (conn : Nat) (groupName : String) :
    ServerState × List (Nat × Json) :=
  (s, [(conn, createGroupHistoryResponse (dbGetGroupHistory s.db groupName))])

/-- ChatServer.handle_leave_group, server.py lines 358-380: leaving
General is rejected before anything else; otherwise the membership is
removed from the database, the live group (when present) hears a system
notice and drops the member, and the leaving user always receives its
refreshed group list. -/
def handleLeaveGroup (s : ServerState) (u : PyUser) (groupName ts : String) :
    ServerState × List (Nat × Json) :=
  if groupName = "General" then (s, [])
  else
    let db2 := dbRemoveUserFromGroup s.db u.nickname groupName
    let memPart :=
      match groupsGet s.groups groupName with
      | none => (s.groups, ([] : List (Nat × Json)))
      | some members =>
        (updateGroup s.groups groupName (removeMember members u),
         broadcastSends members
           (createSystemMessage (u.nickname ++ " has left the group.") ts (some groupName))
           (some u))
    ({ s with db := db2, groups := memPart.1 },
     memPart.2 ++ [(u.conn, createUpdateGroupListMessage (dbUserGroups db2 u.nickname))])

/-- ChatServer.handle_group_creation, server.py lines 338-356: persistence
first; only on success is the in-memory group created (if absent) and
every connected user in the member set added to it and sent a refreshed
group list, in self.users iteration order. On persistence failure nothing
at all happens. -/
def handleGroupCreation (s : ServerState) (creator : PyUser) (groupName : String)
    (members : List String) : ServerState × List (Nat × Json) :=
  let pr := dbCreateGroup s.db groupName creator.nickname members
  if pr.1 then
    let allMembers := members ++ [creator.nickname]
    let groups1 :=
      if (groupsGet s.groups groupName).isSome then s.groups
      else s.groups ++ [(groupName, [])]
    let step := fun (acc : List (String × List PyUser) × List (Nat × Json)) (u : PyUser) =>
      if u.nickname ∈ allMembers then
        (updateGroup acc.1 groupName (addMember ((groupsGet acc.1 groupName).getD []) u),
         acc.2 ++ [(u.conn, createUpdateGroupListMessage (dbUserGroups pr.2 u.nickname))])
      else acc
    let fin := s.users.foldl step (groups1, [])
    ({ s with db := pr.2, groups := fin.1 }, fin.2)
  else (s, [])

/-- C5: group creation persists the group and its initial membership
before any in-memory mutation (the resulting state always carries exactly
the database create_group returned, and memory changes only under its
success), and when persistence reports the name taken the whole state is
unchanged and nothing is sent to the requester. -/
theorem claim_group_creation_persist_first (s : ServerState) (creator : PyUser)
    (groupName : String) (members : List String) :
    (groupName ∈ s.db.dbGroups →
      handleGroupCreation s creator groupName members = (s, [])) ∧
    (handleGroupCreation s creator groupName members).1.db =
      (dbCreateGroup s.db groupName creator.nickname members).2 := by
  constructor
  · intro htaken
    rw [handleGroupCreation]
    simp only [dbCreateGroup, htaken, if_pos, reduceIte, if_true,
      Bool.false_eq_true, if_false]
  · rw [handleGroupCreation, dbCreateGroup]
    by_cases htaken : groupName ∈ s.db.dbGroups
    · simp [htaken]
    · simp [htaken]

/-- Witness for C5: creating a group whose name is already persisted
leaves the state untouched and sends nothing. -/
theorem claim_group_creation_persist_first_witness :
    handleGroupCreation
      { users := [⟨0, "alice"⟩], groups := [("General", [⟨0, "alice"⟩])],
        nextFilePort := 12395,
        db := { dbGroups := ["General", "Dev"],
                dbMembers := [("General", "alice"), ("Dev", "alice")],
                dbMessages := [] } }
      ⟨0, "alice"⟩ "Dev" ["bob"] =
    ({ users := [⟨0, "alice"⟩], groups := [("General", [⟨0, "alice"⟩])],
       nextFilePort := 12395,
       db := { dbGroups := ["General", "Dev"],
               dbMembers := [("General", "alice"), ("Dev", "alice")],
               dbMessages := [] } }, []) :=
  (claim_group_creation_persist_first _ ⟨0, "alice"⟩ "Dev" ["bob"]).1 (by decide)
/-- C7 counterexample: a get_history request naming a group absent from
the registry draws a reply (the empty group_history_response), refuting
that the server sends no message back for an unknown group. -/
theorem claim_unknown_group_cex :
    (handleGetHistory
      { users := [⟨0, "alice"⟩], groups := [("General", [⟨0, "alice"⟩])],
        nextFilePort := 12395,
        db := { dbGroups := ["General"], dbMembers := [("General", "alice")],
                dbMessages := [] } }
      0 "Nope").2 = [(0, createGroupHistoryResponse [])] ∧
    [(0, createGroupHistoryResponse [])] ≠ ([] : List (Nat × Json)) :=
  ⟨rfl, by simp⟩

/-- C7 as amended: for a chat message naming a group absent from the
registry nothing is sent and the state is unchanged; a get_history request
for a group absent from registry and database leaves the state unchanged
but draws exactly one group_history_response with an empty history; a
leave_group request for such a group (other than General) leaves the state
unchanged but draws exactly one update_group_list carrying the unchanged
group list of the requesting user. -/
theorem claim_unknown_group_amended (s : ServerState) (u : PyUser) (conn : Nat)
    (g mt tf td ts : String)
    (hreg : groupsGet s.groups g = none) (hdb : g ∉ s.db.dbGroups) :
    handleChat s u g mt tf td = (s, []) ∧
    handleGetHistory s conn g = (s, [(conn, createGroupHistoryResponse [])]) ∧
    (g ≠ "General" →
      handleLeaveGroup s u g ts =
        (s, [(u.conn, createUpdateGroupListMessage (dbUserGroups s.db u.nickname))])) := by
  refine ⟨?_, ?_, ?_⟩
  · rw [handleChat, hreg]
  · rw [handleGetHistory, dbGetGroupHistory, if_neg hdb]
  · intro hng
    rw [handleLeaveGroup, if_neg hng, hreg]
    have hdb2 : dbRemoveUserFromGroup s.db u.nickname g = s.db := by
      rw [dbRemoveUserFromGroup, if_neg hdb]
    simp only [hdb2, List.nil_append]

/-- Witness for the amended C7 at a one-user state and the group Nope. -/
theorem claim_unknown_group_amended_witness :
    handleChat
      { users := [⟨0, "alice"⟩], groups := [("General", [⟨0, "alice"⟩])],
        nextFilePort := 12395,
        db := { dbGroups := ["General"], dbMembers := [("General", "alice")],
                dbMessages := [] } }
      ⟨0, "alice"⟩ "Nope" "hi" "2024-01-01 10:00:00" "10:00:00" =
    ({ users := [⟨0, "alice"⟩], groups := [("General", [⟨0, "alice"⟩])],
       nextFilePort := 12395,
       db := { dbGroups := ["General"], dbMembers := [("General", "alice")],
               dbMessages := [] } }, []) :=
  (claim_unknown_group_amended _ ⟨0, "alice"⟩ 0 "Nope" "hi" "2024-01-01 10:00:00"
    "10:00:00" "" (by decide) (by decide)).1
theorem allocPorts_eq_range (s : ServerState) (k : Nat) :
    allocPorts s k = List.range' s.nextFilePort k := by
  induction k generalizing s with
  | zero => rfl
  | succ n ih =>
    rw [allocPorts, ih, allocPort]
    rfl

/-- C8: every ephemeral-port allocation returns a value strictly greater
than every previously allocated port, so any sequence of allocations
yields pairwise distinct, strictly increasing, never-reused ports. -/
theorem claim_port_allocation (s : ServerState) (k : Nat) :
    (allocPorts s k).Pairwise (fun a b => a < b) ∧ (allocPorts s k).Nodup ∧
    (allocPort s).1 = s.nextFilePort ∧
    ((allocPort s).2).nextFilePort = s.nextFilePort + 1 := by
  rw [allocPorts_eq_range]
  exact ⟨List.pairwise_lt_range' s.nextFilePort k, List.nodup_range' s.nextFilePort k,
    rfl, rfl⟩

theorem natDigits_no_uscore (n : Nat) : '_' ∉ natDigits n := by
  intro h
  have := natDigits_all_digits n '_' h
  simp [Char.isDigit] at this

theorem splitUscore_ne_nil (cs : List Char) : splitUscore cs ≠ [] := by
  cases cs with
  | nil => simp [splitUscore]
  | cons c t =>
    rw [splitUscore]
    split_ifs
    · simp
    · cases h : splitUscore t with
      | nil => simp
      | cons p ps => simp

theorem joinUscore_splitUscore (cs : List Char) :
    joinUscore (splitUscore cs) = cs := by
  induction cs with
  | nil => rfl
  | cons c t ih =>
    rw [splitUscore]
    split_ifs with hc
    · subst hc
      cases h : splitUscore t with
      | nil => exact absurd h (splitUscore_ne_nil t)
      | cons p ps =>
        rw [joinUscore]
        rw [h] at ih
        rw [ih]
        simp
    · cases h : splitUscore t with
      | nil => exact absurd h (splitUscore_ne_nil t)
      | cons p ps =>
        rw [h] at ih
        cases ps with
        | nil =>
          rw [joinUscore]
          rw [joinUscore] at ih
          rw [ih]
        | cons q qs =>
          rw [joinUscore]
          rw [joinUscore] at ih
          rw [List.cons_append, ih]

theorem splitUscore_append_of_no_uscore (xs ys : List Char) (h : '_' ∉ xs) :
    splitUscore (xs ++ '_' :: ys) = xs :: splitUscore ys := by
  induction xs with
  | nil =>
    rw [List.nil_append, splitUscore, if_pos rfl]
  | cons c t ih =>
    have hc : ¬ c = '_' := fun hc => h (by simp [hc])
    rw [List.cons_append, splitUscore, if_neg hc,
      ih (fun hx => h (by simp [hx]))]

/-- C9: stripping the unique storage key built from a coarse timestamp and
a filename returns exactly the basename of the filename, underscores in
the name included. -/
theorem claim_unique_key_roundtrip (t : Nat) (f : String) :
    stripUniqueKey (mkUniqueFilename t f) = posixBasename f := by
  rw [stripUniqueKey, mkUniqueFilename]
  have hshape : (String.mk (natDigits t ++ '_' :: (posixBasename f).data)).data
      = natDigits t ++ '_' :: (posixBasename f).data := rfl
  rw [hshape, splitUscore_append_of_no_uscore _ _ (natDigits_no_uscore t)]
  rw [List.drop_one, List.tail_cons, joinUscore_splitUscore]
